import Mathlib

set_option maxHeartbeats 1000000

/-!
Verification development for the `MeteoraPositionStream` orchestrator
(`src/unnamed/part_000`).  The class is an event-driven Node `Transform`
stream; we embed it as a small-step transition system.  Every field of
`St` below up to `out` mirrors a private field of the class; the fields
after `out` are instrumentation counters (ghost state) that record how
often certain code points were reached, and never influence behaviour.

External collaborators that are not part of this repository's `src/`
(the classifier `parseMeteoraTransactions`, the aggregate builder
`MeteoraPosition` / `invertAndFillMissingFees`, the batch processor
`AsyncBatchProcessor`, the source `ParsedTransactionStream`, and
`updateOpenPosition`) are modelled from the spec: the first three as
opaque pure-function parameters bundled in `Env`, the batch processor as
the FIFO `queue` plus `Task.transform` (spec §4.1), the source as the
schedule events `sigCount`/`allFound`/`batch`/`srcEnd`/`srcError`
constrained by `wfOk` (spec §6), and the augmenter as the suspension
point `Task.finOpen` (spec §4.3).
-/

namespace MPS

/-- One classified transaction (`MeteoraPositionTransaction`): we keep the
two fields the orchestrator inspects, the position key (`position`) and
the open-trigger flag (`open` in the source; `openFlag` here because
`open` is a Lean keyword). -/
structure Tx where
  position : Nat
  openFlag : Bool
deriving DecidableEq, Repr

/-- A built position aggregate (`MeteoraPosition`).  `isClosed` is the
field the orchestrator branches on; `augmented` records whether
`updateOpenPosition` has completed on it (instrumentation for the
open-position path). -/
structure Pos where
  txs : List Tx
  isClosed : Bool
  augmented : Bool
deriving DecidableEq, Repr

/-- Modelled from the spec: the pure external collaborators
(Classifier, PositionAggregator) that are not in `src/` are parameters
of the semantics (spec §4.3: deterministic pure functions). -/
structure Env where
  classify : List Nat → List Tx
  invertFill : List Tx → List Tx
  isClosedOf : List Tx → Bool

/-- Events emitted to listeners.  These mirror the
`MeteoraPositionStreamData` union of the source plus the terminal
`null` (`term`) and the `error` event (`errEv`).  `uop` is
`MeteoraPositionStreamUpdatingOpenPositions`, which the source file
declares in its output union. -/
inductive OutEv where
  | sigCount (n : Nat)
  | allFound
  | txCount (n : Nat)
  | posTx (txs : List Tx) (pos : Pos)
  | uop (n : Nat)
  | term
  | errEv
deriving DecidableEq, Repr

/-- Suspended asynchronous work:
* `transform raws` — a batch dequeued by `_processBatch` whose
  classifier call (`processor.next()`'s transform) has not resolved yet;
* `finOpen bid key txs pos` — a `_createPosition` call suspended at
  `await updateOpenPosition` (the position was not closed);
* `afterJoin bid ic` — the rest of `_processBatch` after
  `await Promise.all(...)` for the batch with id `bid` and input count
  `ic` (runnable once no `finOpen` with the same `bid` is in flight);
* `drainLoop` — one pending iteration of the source-`end` handler's
  `while (!processor.isComplete)` loop. -/
inductive Task where
  | transform (raws : List Nat)
  | finOpen (bid : Nat) (key : Nat) (txs : List Tx) (pos : Pos)
  | afterJoin (bid : Nat) (ic : Nat)
  | drainLoop
deriving DecidableEq, Repr

/-- The orchestrator state.  Fields up to `out` mirror the class fields
of `MeteoraPositionStream` (plus `queue`, the `AsyncBatchProcessor`
FIFO, and `tasks`, the suspended continuations); the fields after `out`
are instrumentation counters that never influence behaviour:
`delivered` = total raw transactions handed to `addBatch`, `drained` =
number of `processor.next()` dequeues, `lost` = raw transactions of
batches whose transform rejected, `finStarts`/`finDone` = finalize
steps started/completed, `cancelSnap` = `(finStarts, finDone)` at the
first `cancel()` that precedes the terminal signal. -/
structure St where
  initDone : Bool
  receivedAll : Bool
  received : Nat
  processed : Nat
  log : List Tx
  done : Bool
  cancelling : Bool
  cancelled : Bool
  pending : List Nat
  queue : List (List Nat)
  tasks : List Task
  nextBid : Nat
  out : List OutEv
  delivered : Nat
  drained : Nat
  lost : Nat
  finStarts : Nat
  finDone : Nat
  cancelSnap : Option (Nat × Nat)
deriving DecidableEq, Repr

/-- The freshly constructed stream: `_init` has not yet completed its
`await getDlmmPairs()`, so `_transactionStream` and `_processor` are
unassigned (`initDone = false`). -/
def initSt : St :=
  { initDone := false, receivedAll := false, received := 0, processed := 0
    log := [], done := false, cancelling := false, cancelled := false
    pending := [], queue := [], tasks := [], nextBid := 0, out := []
    delivered := 0, drained := 0, lost := 0, finStarts := 0, finDone := 0
    cancelSnap := none }

/-- `super.push(chunk)`: deliver a chunk (or the terminal `null`, for
`c = none`) to listeners. -/
def emitOut (s : St) (c : Option OutEv) : St :=
  match c with
  | some e => { s with out := s.out ++ [e] }
  | none => { s with out := s.out ++ [OutEv.term] }

/-- The overridden `push` (source lines 323–340): the emission gate.
Rule order exactly as in the code: pending non-empty → forward;
cancelling and not yet cancelled → mark cancelled and push the terminal
`null` instead; cancelled → drop; otherwise forward. -/
def push (s : St) (c : Option OutEv) : St :=
  if 0 < s.pending.length then emitOut s c
  else if s.cancelling = true ∧ s.cancelled = false then
    emitOut { s with cancelled := true } none
  else if s.cancelled = true then s
  else emitOut s c

/-- `_finish` (source lines 298–307): if all transactions were received,
the processed count has caught up and the stream is not already done,
mark done and push the terminal `null`. -/
def finish (s : St) : St :=
  if s.receivedAll = true ∧ s.received = s.processed ∧ s.done = false then
    push { s with done := true } none
  else s

/-- The non-`parsedTransaction` branch of `_parseTransactions` for a
`signatureCount` progress signal: record the count, forward the signal
through the gate, then `_finish`. -/
def parseSignalSigCount (s : St) (n : Nat) : St :=
  finish (push { s with received := n } (some (OutEv.sigCount n)))

/-- The non-`parsedTransaction` branch of `_parseTransactions` for an
`allSignaturesFound` signal: set the flag, forward, then `_finish`. -/
def parseSignalAllFound (s : St) : St :=
  finish (push { s with receivedAll := true } (some OutEv.allFound))

/-- Modelled from the spec: `AsyncBatchProcessor.isComplete` (spec §4.1)
— no unprocessed batch in the queue and no transform in flight. -/
def isTransformTask (t : Task) : Bool :=
  match t with
  | Task.transform _ => true
  | _ => false

/-- Modelled from the spec: `AsyncBatchProcessor.isComplete`. -/
def isComplete (s : St) : Bool :=
  s.queue.isEmpty && !(s.tasks.any isTransformTask)

/-- The synchronous prefix of `_processBatch` (source lines 205–230): if
neither cancelling nor cancelled, call `processor.next()`.  An empty
queue yields `{0, []}` immediately, so the input-count guard fails and
`_finish()` runs; otherwise the oldest batch is dequeued and its
classifier transform starts (suspends as a `Task.transform`). -/
def processBatchStart (s : St) : St :=
  if s.cancelling = false ∧ s.cancelled = false then
    match s.queue with
    | [] => finish s
    | b :: rest =>
      { s with queue := rest, drained := s.drained + 1
               tasks := s.tasks ++ [Task.transform b] }
  else s

/-- The `parsedTransaction` branch of `_parseTransactions`:
`processor.addBatch(...)` then a fire-and-forget `_processBatch`. -/
def batchStep (s : St) (raws : List Nat) : St :=
  processBatchStart
    { s with queue := s.queue ++ [raws], delivered := s.delivered + raws.length }

/-- `invertAndFillMissingFees(this._transactions.filter(...))`: the
canonical transaction list of one position key, collected from the
log. -/
def collectTxs (env : Env) (log : List Tx) (k : Nat) : List Tx :=
  env.invertFill (log.filter (fun u => u.position == k))

/-- `new MeteoraPosition(newPositionTransactions)`: the aggregate built
from one key's collected transactions. -/
def builtPos (env : Env) (log : List Tx) (k : Nat) : Pos :=
  { txs := collectTxs env log k
    isClosed := env.isClosedOf (collectTxs env log k)
    augmented := false }

/-- The synchronous prefix of one `_createPosition` call inside the
`Promise.all` of `_processBatch` (source lines 254–283), guarded by the
caller's `positionTransaction.open` test: record the key in
`_pendingPositions`, collect the key's transactions from the log, build
the aggregate; a closed position is pushed and removed from pending at
once, an open one suspends at `await updateOpenPosition` as a
`Task.finOpen`. -/
def createPosition (env : Env) (bid : Nat) (s : St) (t : Tx) : St :=
  if t.openFlag then
    let key := t.position
    let s1 := { s with pending := s.pending ++ [key], finStarts := s.finStarts + 1 }
    let ptxs := collectTxs env s1.log key
    let pos := builtPos env s1.log key
    if pos.isClosed then
      let s2 := push s1 (some (OutEv.posTx ptxs pos))
      { s2 with pending := s2.pending.erase key, finDone := s2.finDone + 1 }
    else
      { s1 with tasks := s1.tasks ++ [Task.finOpen bid key ptxs pos] }
  else s

/-- The `Promise.all(output.map(...))` spawn loop of `_processBatch`. -/
def spawnFinalizes (env : Env) (bid : Nat) (s : St) (output : List Tx) : St :=
  output.foldl (createPosition env bid) s

/-- The non-empty-output body of `_processBatch` after the transform
resolves: append the output to the transaction log, push the running
`transactionCount`, start the finalize steps, and leave the
post-`Promise.all` remainder as a `Task.afterJoin` of the batch. -/
def transformCore (env : Env) (s : St) (raws : List Nat) : St :=
  let s3 := push { s with log := s.log ++ env.classify raws }
    (some (OutEv.txCount (s.log ++ env.classify raws).length))
  let s1 := spawnFinalizes env s.nextBid s3 (env.classify raws)
  { s1 with tasks := s1.tasks ++ [Task.afterJoin s.nextBid raws.length]
            nextBid := s1.nextBid + 1 }

/-- Resumption of `_processBatch` when the classifier transform of a
dequeued batch resolves: for a non-empty batch with non-empty output run
`transformCore`; a non-empty batch with empty output only schedules the
processed-count update (`afterJoin`); an empty batch (`inputCount = 0`)
skips the block and runs `_finish` directly. -/
def transformResume (env : Env) (s : St) (raws : List Nat) : St :=
  if 0 < raws.length then
    if 0 < (env.classify raws).length then transformCore env s raws
    else
      { s with tasks := s.tasks ++ [Task.afterJoin s.nextBid raws.length]
               nextBid := s.nextBid + 1 }
  else finish s

/-- Resumption of `_updateOpenPosition` (source lines 285–296) when
`updateOpenPosition` resolves, followed by the tail of
`_createPosition`: push the augmented record, then splice the key out of
`_pendingPositions`. -/
def updateOpenResume (s : St) (key : Nat) (txs : List Tx) (pos : Pos) : St :=
  let s1 := push s (some (OutEv.posTx txs { pos with augmented := true }))
  { s1 with pending := s1.pending.erase key, finDone := s1.finDone + 1 }

/-- The tail of `_processBatch` after `await Promise.all(...)`:
`_transactionsProcessedCount += inputCount` then `_finish()`. -/
def afterJoinResume (s : St) (ic : Nat) : St :=
  finish { s with processed := s.processed + ic }

/-- `true` iff no finalize step of batch `bid` is still in flight — the
condition for that batch's `Promise.all` to be resolved. -/
def noFinOpenBid (tasks : List Task) (bid : Nat) : Bool :=
  tasks.all fun t =>
    match t with
    | Task.finOpen b _ _ _ => !(b == bid)
    | _ => true

/-- One iteration of the source-`end` handler's
`while (!processor.isComplete) { await _processBatch; await delay(0) }`
loop (the loop's task has already been taken off the task list): exit
when complete, spin without effect under cancellation (the
`_processBatch` body is skipped), otherwise poll `next()` exactly as
`processBatchStart` does. -/
def drainResume (s : St) : St :=
  if isComplete s then s
  else if s.cancelling = true ∨ s.cancelled = true then
    { s with tasks := s.tasks ++ [Task.drainLoop] }
  else
    match s.queue with
    | [] =>
      let s1 := finish s
      { s1 with tasks := s1.tasks ++ [Task.drainLoop] }
    | b :: rest =>
      { s with queue := rest, drained := s.drained + 1
               tasks := s.tasks ++ [Task.transform b, Task.drainLoop] }

/-- The source-`end` handler (source lines 194–201): set
`_receivedAllTransactions` and, while the processor is not complete,
keep draining. -/
def srcEndStep (s : St) : St :=
  if isComplete { s with receivedAll := true } then { s with receivedAll := true }
  else { s with receivedAll := true, tasks := s.tasks ++ [Task.drainLoop] }

/-- `cancel()` (source lines 162–165) as a fallible call: the field
`_transactionStream` is declared with a definite-assignment assertion
(`!`) and assigned only after `_init`'s first `await` resolves, so
calling `cancel()` earlier dereferences `undefined` and throws a
`TypeError` before `_cancelling` is assigned. -/
def cancelMethod (s : St) : Except Unit St :=
  if s.initDone then Except.ok { s with cancelling := true }
  else Except.error ()

def isTermEv (e : OutEv) : Bool :=
  match e with
  | OutEv.term => true
  | _ => false

def countTerm (l : List OutEv) : Nat := l.countP isTermEv

/-- The effect of a `cancel()` call inside the transition system: when
initialization has completed it records the request (and snapshots the
finalize counters the first time, if the terminal signal has not yet
been emitted — instrumentation only); before initialization it throws,
leaving the state unchanged. -/
def cancelStep (s : St) : St :=
  match cancelMethod s with
  | Except.error _ => s
  | Except.ok s1 =>
    { s1 with cancelSnap :=
        if s.cancelSnap = none ∧ countTerm s.out = 0 then
          some (s.finStarts, s.finDone)
        else s.cancelSnap }

/-- Scheduler / environment events driving an execution: completion of
`_init`'s await, the source's signals and data batches (spec §6), its
`end` and `error` events, a user `cancel()`, resumption of a suspended
task, and rejection of a batch's classifier transform. -/
inductive Ev where
  | initEv
  | sigCount (n : Nat)
  | allFound
  | batch (raws : List Nat)
  | srcEnd
  | srcError
  | cancel
  | runTask (t : Task)
  | failTransform (raws : List Nat)
deriving DecidableEq, Repr

/-- Resume the given suspended task, if present (first occurrence is
taken).  An `afterJoin` only resumes once its batch's finalize steps
have all completed (`Promise.all`). -/
def runTaskStep (env : Env) (s : St) (t : Task) : St :=
  if t ∈ s.tasks then
    match t with
    | Task.transform raws =>
      transformResume env { s with tasks := s.tasks.erase t } raws
    | Task.finOpen _ key txs pos =>
      updateOpenResume { s with tasks := s.tasks.erase t } key txs pos
    | Task.afterJoin bid ic =>
      if noFinOpenBid s.tasks bid then
        afterJoinResume { s with tasks := s.tasks.erase t } ic
      else s
    | Task.drainLoop => drainResume { s with tasks := s.tasks.erase t }
  else s

/-- One step of the transition system.  Source events are delivered only
once `_init` has attached the listeners (`initDone`).  A rejecting
classifier transform (`failTransform`) discards the suspended
continuation: the promise returned by `_processBatch` is never awaited
by `_parseTransactions`, so the rejection reaches no handler and, in
particular, no `error` event is emitted. -/
def step (env : Env) (s : St) (e : Ev) : St :=
  match e with
  | Ev.initEv => { s with initDone := true }
  | Ev.sigCount n => if s.initDone then parseSignalSigCount s n else s
  | Ev.allFound => if s.initDone then parseSignalAllFound s else s
  | Ev.batch raws => if s.initDone then batchStep s raws else s
  | Ev.srcEnd => if s.initDone then srcEndStep s else s
  | Ev.srcError => if s.initDone then { s with out := s.out ++ [OutEv.errEv] } else s
  | Ev.cancel => cancelStep s
  | Ev.runTask t => runTaskStep env s t
  | Ev.failTransform raws =>
    if Task.transform raws ∈ s.tasks then
      { s with tasks := s.tasks.erase (Task.transform raws)
               lost := s.lost + raws.length }
    else s

/-- Run a schedule from the initial state. -/
def exec (env : Env) (sched : List Ev) : St :=
  sched.foldl (step env) initSt

/-- Modelled from the spec: the source-interface accumulator used to
state well-formedness of an execution's environment
(`ParsedTransactionStream` is not in `src/`; spec §2, §6 describe it as
a paginating signature fetcher that reports cumulative counts, flags
`allSignaturesFound` once, then delivers the found transactions and
ends, and that supports cancellation). -/
structure WfAcc where
  inited : Bool
  lastSig : Nat
  allF : Bool
  ended : Bool
  canc : Bool
  errored : Bool
  deliv : Nat
deriving DecidableEq, Repr

def wfAcc0 : WfAcc :=
  { inited := false, lastSig := 0, allF := false, ended := false
    canc := false, errored := false, deliv := 0 }

/-- Modelled from the spec: one admissibility check for an environment
event.  Signature counts are cumulative and non-decreasing and every
delivered transaction was counted first; no progress signal after
`allSignaturesFound`; `end`/`error` happen at most once and nothing from
the source follows them; a cancelled source emits nothing further except
possibly its `end`.  Scheduler events are unconstrained. -/
def wfStep (a : WfAcc) (e : Ev) : Option WfAcc :=
  match e with
  | Ev.initEv => some { a with inited := true }
  | Ev.sigCount n =>
    if a.inited = true ∧ a.allF = false ∧ a.ended = false ∧ a.canc = false ∧
        a.errored = false ∧ a.lastSig ≤ n then
      some { a with lastSig := n }
    else none
  | Ev.allFound =>
    if a.inited = true ∧ a.allF = false ∧ a.ended = false ∧ a.canc = false ∧
        a.errored = false then
      some { a with allF := true }
    else none
  | Ev.batch raws =>
    if a.inited = true ∧ a.ended = false ∧ a.canc = false ∧ a.errored = false ∧
        a.deliv + raws.length ≤ a.lastSig then
      some { a with deliv := a.deliv + raws.length }
    else none
  | Ev.srcEnd =>
    if a.inited = true ∧ a.ended = false ∧ a.errored = false then
      some { a with ended := true }
    else none
  | Ev.srcError =>
    if a.inited = true ∧ a.ended = false ∧ a.canc = false ∧ a.errored = false then
      some { a with errored := true }
    else none
  | Ev.cancel => some (if a.inited then { a with canc := true } else a)
  | Ev.runTask _ => some a
  | Ev.failTransform _ => some a

def wfRun (sched : List Ev) : Option WfAcc :=
  sched.foldl (fun o e => o.bind (fun a => wfStep a e)) (some wfAcc0)

/-- A schedule whose environment events conform to the source interface
modelled from the spec. -/
def wfOk (sched : List Ev) : Bool := (wfRun sched).isSome

/-! Observation helpers over the emitted event list. -/

def isPosTxEv (e : OutEv) : Bool :=
  match e with
  | OutEv.posTx _ _ => true
  | _ => false

def isUopEv (e : OutEv) : Bool :=
  match e with
  | OutEv.uop _ => true
  | _ => false

def isErrEv (e : OutEv) : Bool :=
  match e with
  | OutEv.errEv => true
  | _ => false

def countPosTx (l : List OutEv) : Nat := l.countP isPosTxEv

def countUop (l : List OutEv) : Nat := l.countP isUopEv

def countErr (l : List OutEv) : Nat := l.countP isErrEv

/-- The emitted events strictly before the (first) terminal signal. -/
def beforeTerm (l : List OutEv) : List OutEv :=
  l.takeWhile (fun e => !(isTermEv e))

/-- The emitted events strictly after the (first) terminal signal. -/
def afterTerm (l : List OutEv) : List OutEv :=
  (l.dropWhile (fun e => !(isTermEv e))).drop 1

/-- Event kinds that can at all be emitted once the terminal signal is
out: batch-derived data from work in flight when cancellation was
finalized, and a source error (`emit` bypasses the gate). -/
def allowedAfterTerm (e : OutEv) : Bool :=
  match e with
  | OutEv.txCount _ => true
  | OutEv.posTx _ _ => true
  | OutEv.errEv => true
  | _ => false

/-- Number of open-trigger (`open`-kind) transactions in a list. -/
def countOpen (l : List Tx) : Nat := l.countP (fun t => t.openFlag)

/-- The position keys of the in-flight open-position finalize steps. -/
def pendKeys (tasks : List Task) : List Nat :=
  tasks.filterMap fun t =>
    match t with
    | Task.finOpen _ k _ _ => some k
    | _ => none

/-- Raw-transaction counts still owed to `processed`: sizes of dequeued
batches whose transform is in flight plus input counts of batches whose
`Promise.all` tail has not run. -/
def icOf (t : Task) : Nat :=
  match t with
  | Task.transform raws => raws.length
  | Task.afterJoin _ ic => ic
  | _ => 0

def icSum (tasks : List Task) : Nat := (tasks.map icOf).sum

def qSum (queue : List (List Nat)) : Nat := (queue.map List.length).sum

def noTransformTasks (s : St) : Bool := !(s.tasks.any isTransformTask)

/-- Modelled from the spec: the emission gate exactly as claim
C2 / spec §4.2 words it, four rules in priority order — non-empty
pending set → emit; else a requested-but-unfinalized cancellation →
finalize it and emit the terminal signal instead of the candidate; else
an already-finalized cancellation → drop silently; else emit
normally. -/
def gateSpec (s : St) (c : Option OutEv) : St :=
  if s.pending ≠ [] then emitOut s c
  else if s.cancelling = true ∧ s.cancelled = false then
    emitOut { s with cancelled := true } none
  else if s.cancelled = true then s
  else emitOut s c

/-! Concrete environments and schedules used for counterexamples and
witnesses.  Each corresponds to a real execution of the class: the
classifier and aggregate functions are chosen concretely, and the
schedules interleave environment events with task resumptions exactly as
the Node event loop may. -/

/-- Every raw transaction classifies to an open trigger on key 1 and the
aggregate is closed. -/
def envA : Env :=
  { classify := fun raws => raws.map (fun _ => { position := 1, openFlag := true })
    invertFill := id, isClosedOf := fun _ => true }

/-- Every raw transaction classifies to a non-open transaction on key 1. -/
def envB : Env :=
  { classify := fun raws => raws.map (fun _ => { position := 1, openFlag := false })
    invertFill := id, isClosedOf := fun _ => true }

/-- Every raw transaction classifies to an open trigger on key 1 and the
aggregate stays open. -/
def envC : Env :=
  { classify := fun raws => raws.map (fun _ => { position := 1, openFlag := true })
    invertFill := id, isClosedOf := fun _ => false }

/-- Each raw transaction opens its own position key and all aggregates
stay open. -/
def envD : Env :=
  { classify := fun raws => raws.map (fun r => { position := r, openFlag := true })
    invertFill := id, isClosedOf := fun _ => false }

/-- `cancel()` arrives while the only batch's classifier transform is in
flight (a real interleaving: the classifier performs RPC I/O). -/
def schedCancelMidTransform : List Ev :=
  [Ev.initEv, Ev.sigCount 2, Ev.allFound, Ev.batch [5, 6], Ev.cancel]

/-- ... and then the transform resolves. -/
def schedCancelResumed : List Ev :=
  schedCancelMidTransform ++ [Ev.runTask (Task.transform [5, 6])]

/-- A single one-transaction batch that classifies to a non-open
transaction, run to completion. -/
def schedLoneNonOpen : List Ev :=
  [Ev.initEv, Ev.sigCount 1, Ev.allFound, Ev.batch [9],
   Ev.runTask (Task.transform [9]), Ev.runTask (Task.afterJoin 0 1)]

/-- A single open position that stays open: its finalize step suspends
at the augmenter and then resumes. -/
def schedOneOpenPosition : List Ev :=
  [Ev.initEv, Ev.sigCount 1, Ev.batch [9], Ev.runTask (Task.transform [9]),
   Ev.runTask (Task.finOpen 0 1 [{ position := 1, openFlag := true }]
     { txs := [{ position := 1, openFlag := true }], isClosed := false, augmented := false })]

/-- The classifier rejects on the only batch; the source then ends. -/
def schedClassifierFails : List Ev :=
  [Ev.initEv, Ev.sigCount 1, Ev.allFound, Ev.batch [9],
   Ev.failTransform [9], Ev.srcEnd]

/-- Two open positions in flight at once. -/
def schedTwoPending : List Ev :=
  [Ev.initEv, Ev.sigCount 2, Ev.batch [5, 6], Ev.runTask (Task.transform [5, 6])]

/-- A trivially complete source: zero signatures, then all found. -/
def schedEmptyPre : List Ev := [Ev.initEv, Ev.sigCount 0]

/-- One closed position, run to normal completion. -/
def schedOneClosed : List Ev :=
  [Ev.initEv, Ev.sigCount 1, Ev.allFound, Ev.batch [9],
   Ev.runTask (Task.transform [9]), Ev.runTask (Task.afterJoin 0 1)]

/-! Computed forms of the finalize-spawn loop, for analysis: during one
`Promise.all` the log is fixed, so which branch each output transaction
takes depends only on the environment and the log.  `spawnPend`,
`spawnFins` and `spawnEvs` compute the pending list, the new `finOpen`
tasks and the emitted events of `spawnFinalizes`. -/

def spawnPend (env : Env) (log : List Tx) : List Nat → List Tx → List Nat
  | p, [] => p
  | p, t :: rest =>
    if t.openFlag then
      if (builtPos env log t.position).isClosed then
        spawnPend env log ((p ++ [t.position]).erase t.position) rest
      else spawnPend env log (p ++ [t.position]) rest
    else spawnPend env log p rest

def spawnFins (env : Env) (bid : Nat) (log : List Tx) : List Tx → List Task
  | [] => []
  | t :: rest =>
    if t.openFlag then
      (if (builtPos env log t.position).isClosed then []
       else [Task.finOpen bid t.position (collectTxs env log t.position)
         (builtPos env log t.position)]) ++ spawnFins env bid log rest
    else spawnFins env bid log rest

def spawnEvs (env : Env) (log : List Tx) : List Tx → List OutEv
  | [] => []
  | t :: rest =>
    if t.openFlag then
      (if (builtPos env log t.position).isClosed then
        [OutEv.posTx (collectTxs env log t.position) (builtPos env log t.position)]
       else []) ++ spawnEvs env log rest
    else spawnEvs env log rest

/-- Structural invariants of the orchestrator that hold in every
reachable state of every execution (no assumption on the environment):
bookkeeping between the pending-position list, the in-flight finalize
tasks, the finalize counters, the `open`-trigger count of the log and
the emitted `positionAndTransactions` events; plus monotonicity facts
relating the flags. -/
structure InvB (s : St) : Prop where
  bal : s.finStarts = s.finDone + (pendKeys s.tasks).length
  emis : countPosTx s.out = s.finDone
  openAcc : s.finStarts = countOpen s.log
  pend : ∀ k, s.pending.count k = (pendKeys s.tasks).count k
  join : ∀ bid key txs pos, Task.finOpen bid key txs pos ∈ s.tasks →
    ∃ ic, Task.afterJoin bid ic ∈ s.tasks ∧ 1 ≤ ic
  aug : ∀ txs pos, OutEv.posTx txs pos ∈ s.out → pos.isClosed = false →
    pos.augmented = true
  noUop : ∀ n, OutEv.uop n ∉ s.out
  cImp : s.cancelled = true → s.cancelling = true
  dImp : s.done = true → s.receivedAll = true
  snap : ∀ sc dc, s.cancelSnap = some (sc, dc) → sc ≤ s.finStarts

/-- The correspondence between the source-interface accumulator of a
well-formed schedule and the orchestrator state. -/
structure RAcc (a : WfAcc) (s : St) : Prop where
  recEq : s.received = a.lastSig
  delEq : s.delivered = a.deliv
  delLe : a.deliv ≤ a.lastSig
  cgEq : s.cancelling = a.canc
  raEq : s.receivedAll = (a.allF || a.ended)
  idEq : s.initDone = a.inited

/-- Invariants of the orchestrator that hold in every state reachable
under a well-formed environment: the raw-transaction accounting
(processed plus in-flight plus queued plus lost equals delivered), the
completion flag's meaning, and the shape of the emitted event list
around the terminal signal (at most one terminal; it implies and is
implied by `done`/`cancelled`; only batch-derived events and source
errors may follow it; all finalize steps started before a
pre-terminal cancellation request have emitted before the terminal). -/
structure InvA (s : St) : Prop where
  acc : s.processed + icSum s.tasks + qSum s.queue + s.lost = s.delivered
  dProc : s.done = true → s.processed = s.received
  snapCg : s.cancelSnap ≠ none → s.cancelling = true
  termLe : countTerm s.out ≤ 1
  termFlag : 0 < countTerm s.out ↔ (s.done = true ∨ s.cancelled = true)
  afterOk : ∀ e ∈ afterTerm s.out, allowedAfterTerm e = true
  snapB4 : 0 < countTerm s.out → ∀ sc dc, s.cancelSnap = some (sc, dc) →
    sc ≤ countPosTx (beforeTerm s.out)

/-! ### Basic lemmas about the emission gate and `_finish` -/

/-- The five state fields tracked by the source-interface accumulator
are untouched by a state transformer. -/
def frame5 (t s : St) : Prop :=
  t.received = s.received ∧ t.delivered = s.delivered ∧ t.cancelling = s.cancelling ∧
  t.receivedAll = s.receivedAll ∧ t.initDone = s.initDone

theorem emitOut_out (s : St) (c : Option OutEv) :
    (emitOut s c).out = s.out ++ [c.getD OutEv.term] := by
  cases c <;> rfl

theorem push_rule1 (s : St) (c : Option OutEv) (h : 0 < s.pending.length) :
    push s c = emitOut s c := by
  unfold push
  rw [if_pos h]

theorem push_rule2 (s : St) (c : Option OutEv) (h1 : s.pending = [])
    (h2 : s.cancelling = true) (h3 : s.cancelled = false) :
    push s c = emitOut { s with cancelled := true } none := by
  unfold push
  rw [if_neg (by simp [h1]), if_pos ⟨h2, h3⟩]

theorem push_rule3 (s : St) (c : Option OutEv) (h1 : s.pending = [])
    (h2 : s.cancelled = true) :
    push s c = s := by
  unfold push
  rw [if_neg (by simp [h1]), if_neg (by simp [h2]), if_pos h2]

theorem push_rule4 (s : St) (c : Option OutEv) (h1 : s.pending = [])
    (h2 : s.cancelling = false) (h3 : s.cancelled = false) :
    push s c = emitOut s c := by
  unfold push
  rw [if_neg (by simp [h1]), if_neg (by simp [h2]), if_neg (by simp [h3])]

/-- Whatever the gate does, the only state fields it can change are the
output list and the cancelled flag, and the output only grows. -/
theorem push_frame (s : St) (c : Option OutEv) :
    ∃ w, (push s c).out = s.out ++ w ∧
      (push s c).initDone = s.initDone ∧ (push s c).receivedAll = s.receivedAll ∧
      (push s c).received = s.received ∧ (push s c).processed = s.processed ∧
      (push s c).log = s.log ∧ (push s c).done = s.done ∧
      (push s c).cancelling = s.cancelling ∧ (push s c).pending = s.pending ∧
      (push s c).queue = s.queue ∧ (push s c).tasks = s.tasks ∧
      (push s c).nextBid = s.nextBid ∧ (push s c).delivered = s.delivered ∧
      (push s c).drained = s.drained ∧ (push s c).lost = s.lost ∧
      (push s c).finStarts = s.finStarts ∧ (push s c).finDone = s.finDone ∧
      (push s c).cancelSnap = s.cancelSnap := by
  unfold push emitOut
  split_ifs
  · cases c with
    | none => exact ⟨[OutEv.term], by simp⟩
    | some e => exact ⟨[e], by simp⟩
  · exact ⟨[OutEv.term], by simp⟩
  · exact ⟨[], by simp⟩
  · cases c with
    | none => exact ⟨[OutEv.term], by simp⟩
    | some e => exact ⟨[e], by simp⟩

/-- Under no cancellation at all, the gate forwards every candidate. -/
theorem push_no_cancel (s : St) (c : Option OutEv)
    (hcg : s.cancelling = false) (hcd : s.cancelled = false) :
    push s c = emitOut s c := by
  unfold push
  split_ifs with h1 h2 h3 <;> simp_all

/-- `_finish`'s observable output under no cancellation: the terminal
signal appears exactly when the completion condition holds. -/
theorem finish_out (s : St) (hcg : s.cancelling = false) (hcd : s.cancelled = false) :
    (finish s).out = s.out ++
      (if s.receivedAll = true ∧ s.received = s.processed ∧ s.done = false
       then [OutEv.term] else []) := by
  unfold finish
  split_ifs with h1
  · rw [push_no_cancel { s with done := true } none hcg hcd]
    simp [emitOut, h1]
  · simp [h1]

/-- Case analysis of one `_createPosition` launch: skipped for non-open
transactions; for an open trigger whose aggregate is closed it emits at
once (gate rule 1, since its own key was just added to pending) and
completes; for a still-open aggregate it suspends as a `finOpen`
task. -/
theorem createPosition_cases (env : Env) (bid : Nat) (s : St) (t : Tx) :
    (t.openFlag = false ∧ createPosition env bid s t = s) ∨
    (t.openFlag = true ∧ (builtPos env s.log t.position).isClosed = true ∧
      createPosition env bid s t =
        { s with pending := (s.pending ++ [t.position]).erase t.position,
                 finStarts := s.finStarts + 1, finDone := s.finDone + 1,
                 out := s.out ++ [OutEv.posTx (collectTxs env s.log t.position)
                   (builtPos env s.log t.position)] }) ∨
    (t.openFlag = true ∧ (builtPos env s.log t.position).isClosed = false ∧
      (builtPos env s.log t.position).augmented = false ∧
      createPosition env bid s t =
        { s with pending := s.pending ++ [t.position],
                 finStarts := s.finStarts + 1,
                 tasks := s.tasks ++ [Task.finOpen bid t.position
                   (collectTxs env s.log t.position) (builtPos env s.log t.position)] }) := by
  by_cases ho : t.openFlag = true
  · by_cases hcl : (builtPos env s.log t.position).isClosed = true
    · right; left
      refine ⟨ho, hcl, ?_⟩
      simp only [createPosition, ho, if_true]
      simp only [push, emitOut]
      simp [hcl]
    · right; right
      refine ⟨ho, by simpa using hcl, rfl, ?_⟩
      simp only [createPosition, ho, if_true]
      simp [hcl]
  · left
    refine ⟨by simpa using ho, ?_⟩
    simp [createPosition, ho]

/-- The spawn loop in computed form: the log, queue, counters and flags
are untouched; pending, tasks, out and the finalize counters evolve as
computed by `spawnPend`/`spawnFins`/`spawnEvs`. -/
theorem spawn_eq (env : Env) (bid : Nat) (output : List Tx) : ∀ s : St,
    spawnFinalizes env bid s output =
      { s with pending := spawnPend env s.log s.pending output
               tasks := s.tasks ++ spawnFins env bid s.log output
               out := s.out ++ spawnEvs env s.log output
               finStarts := s.finStarts + countOpen output
               finDone := s.finDone + countPosTx (spawnEvs env s.log output) } := by
  induction output with
  | nil =>
    intro s
    simp [spawnFinalizes, spawnPend, spawnFins, spawnEvs, countOpen, countPosTx]
  | cons t rest ih =>
    intro s
    have hfold : spawnFinalizes env bid s (t :: rest) =
        spawnFinalizes env bid (createPosition env bid s t) rest := rfl
    rcases createPosition_cases env bid s t with ⟨ho, heq⟩ | ⟨ho, hcl, heq⟩ |
      ⟨ho, hcl, _, heq⟩
    · have ho' : ¬t.openFlag = true := by simp [ho]
      rw [hfold, heq, ih s]
      simp [spawnPend, spawnFins, spawnEvs, countOpen, List.countP_cons, ho']
    · rw [hfold, heq, ih]
      simp only [spawnPend, spawnFins, spawnEvs, ho, hcl, if_true]
      simp [countOpen, countPosTx, List.countP_cons, isPosTxEv, ho]
      omega
    · have hcl' : ¬(builtPos env s.log t.position).isClosed = true := by simp [hcl]
      rw [hfold, heq, ih]
      simp only [spawnPend, spawnFins, spawnEvs, ho, hcl', if_true, if_false]
      simp [countOpen, countPosTx, List.countP_cons, isPosTxEv, ho]
      omega

/-- Every task the spawn loop creates is a `finOpen` of the given batch
id. -/
theorem spawnFins_shape (env : Env) (bid : Nat) (log : List Tx) (output : List Tx) :
    ∀ t' ∈ spawnFins env bid log output,
      ∃ k, t' = Task.finOpen bid k (collectTxs env log k) (builtPos env log k) ∧
        (builtPos env log k).isClosed = false := by
  induction output with
  | nil => simp [spawnFins]
  | cons t rest ih =>
    intro t' ht'
    simp only [spawnFins] at ht'
    by_cases ho : t.openFlag = true
    · rw [if_pos ho] at ht'
      rcases List.mem_append.mp ht' with h1 | h2
      · by_cases hcl : (builtPos env log t.position).isClosed = true
        · rw [if_pos hcl] at h1
          simp at h1
        · rw [if_neg hcl] at h1
          simp at h1
          exact ⟨t.position, h1, by simpa using hcl⟩
      · exact ih t' h2
    · rw [if_neg (by simpa using ho)] at ht'
      exact ih t' ht'

/-- Every event the spawn loop emits is a `positionAndTransactions`
record of a closed aggregate. -/
theorem spawnEvs_shape (env : Env) (log : List Tx) (output : List Tx) :
    ∀ e ∈ spawnEvs env log output,
      ∃ k, e = OutEv.posTx (collectTxs env log k) (builtPos env log k) ∧
        (builtPos env log k).isClosed = true := by
  induction output with
  | nil => simp [spawnEvs]
  | cons t rest ih =>
    intro e he
    simp only [spawnEvs] at he
    by_cases ho : t.openFlag = true
    · rw [if_pos ho] at he
      rcases List.mem_append.mp he with h1 | h2
      · by_cases hcl : (builtPos env log t.position).isClosed = true
        · rw [if_pos hcl] at h1
          simp at h1
          exact ⟨t.position, h1, hcl⟩
        · rw [if_neg hcl] at h1
          simp at h1
      · exact ih e h2
    · rw [if_neg (by simpa using ho)] at he
      exact ih e he

/-- The open-trigger count of a batch's output splits into emitted
closed positions plus suspended open ones. -/
theorem spawn_count_split (env : Env) (bid : Nat) (log : List Tx) (output : List Tx) :
    countOpen output =
      countPosTx (spawnEvs env log output) + (spawnFins env bid log output).length := by
  induction output with
  | nil => simp [spawnFins, spawnEvs, countOpen, countPosTx]
  | cons t rest ih =>
    by_cases ho : t.openFlag = true
    · by_cases hcl : (builtPos env log t.position).isClosed = true
      · have h1 : spawnEvs env log (t :: rest) =
            OutEv.posTx (collectTxs env log t.position) (builtPos env log t.position) ::
              spawnEvs env log rest := by
          simp [spawnEvs, ho, hcl]
        have h2 : spawnFins env bid log (t :: rest) = spawnFins env bid log rest := by
          simp [spawnFins, ho, hcl]
        have h3 : countOpen (t :: rest) = countOpen rest + 1 := by
          simp [countOpen, List.countP_cons, ho]
        have h4 : countPosTx (OutEv.posTx (collectTxs env log t.position)
            (builtPos env log t.position) :: spawnEvs env log rest) =
            countPosTx (spawnEvs env log rest) + 1 := by
          simp [countPosTx, List.countP_cons, isPosTxEv]
        rw [h1, h2, h3, h4]
        omega
      · have h1 : spawnEvs env log (t :: rest) = spawnEvs env log rest := by
          simp [spawnEvs, ho, hcl]
        have h2 : spawnFins env bid log (t :: rest) =
            Task.finOpen bid t.position (collectTxs env log t.position)
              (builtPos env log t.position) :: spawnFins env bid log rest := by
          simp [spawnFins, ho, hcl]
        have h3 : countOpen (t :: rest) = countOpen rest + 1 := by
          simp [countOpen, List.countP_cons, ho]
        rw [h1, h2, h3]
        simp only [List.length_cons]
        omega
    · have h1 : spawnEvs env log (t :: rest) = spawnEvs env log rest := by
        simp [spawnEvs, ho]
      have h2 : spawnFins env bid log (t :: rest) = spawnFins env bid log rest := by
        simp [spawnFins, ho]
      have h3 : countOpen (t :: rest) = countOpen rest := by
        simp [countOpen, List.countP_cons, ho]
      rw [h1, h2, h3, ih]

/-- Multiset effect of the spawn loop on the pending list: exactly the
keys of the suspended `finOpen` tasks are added. -/
theorem spawnPend_count (env : Env) (bid : Nat) (log : List Tx) (output : List Tx) :
    ∀ p k, (spawnPend env log p output).count k =
      p.count k + (pendKeys (spawnFins env bid log output)).count k := by
  induction output with
  | nil => simp [spawnPend, spawnFins, pendKeys]
  | cons t rest ih =>
    intro p k
    by_cases ho : t.openFlag = true
    · by_cases hcl : (builtPos env log t.position).isClosed = true
      · have h2 : spawnFins env bid log (t :: rest) = spawnFins env bid log rest := by
          simp [spawnFins, ho, hcl]
        have h1 : spawnPend env log p (t :: rest) =
            spawnPend env log ((p ++ [t.position]).erase t.position) rest := by
          simp [spawnPend, ho, hcl]
        have h5 : ((p ++ [t.position]).erase t.position).count k = p.count k := by
          by_cases hk : k = t.position
          · subst hk
            rw [List.count_erase_self, List.count_append, List.count_singleton_self]
            omega
          · rw [List.count_erase_of_ne hk, List.count_append, List.count_singleton]
            simp [Ne.symm hk]
        rw [h1, h2, ih, h5]
      · have h2 : spawnFins env bid log (t :: rest) =
            Task.finOpen bid t.position (collectTxs env log t.position)
              (builtPos env log t.position) :: spawnFins env bid log rest := by
          simp [spawnFins, ho, hcl]
        have h1 : spawnPend env log p (t :: rest) =
            spawnPend env log (p ++ [t.position]) rest := by
          simp [spawnPend, ho, hcl]
        have h6 : pendKeys (Task.finOpen bid t.position (collectTxs env log t.position)
            (builtPos env log t.position) :: spawnFins env bid log rest) =
            t.position :: pendKeys (spawnFins env bid log rest) := by
          simp [pendKeys]
        rw [h1, h2, ih, h6]
        rw [List.count_append, List.count_singleton, List.count_cons]
        by_cases hk : k = t.position
        · subst hk
          simp
          omega
        · simp [Ne.symm hk, hk]
    · have h2 : spawnFins env bid log (t :: rest) = spawnFins env bid log rest := by
        simp [spawnFins, ho]
      have h1 : spawnPend env log p (t :: rest) = spawnPend env log p rest := by
        simp [spawnPend, ho]
      rw [h1, h2, ih]

/-! ### Task-list bookkeeping lemmas -/

theorem pendKeys_append (l1 l2 : List Task) :
    pendKeys (l1 ++ l2) = pendKeys l1 ++ pendKeys l2 := by
  simp [pendKeys, List.filterMap_append]

theorem pendKeys_perm {l1 l2 : List Task} (h : l1.Perm l2) :
    (pendKeys l1).Perm (pendKeys l2) :=
  h.filterMap _

theorem icSum_perm {l1 l2 : List Task} (h : l1.Perm l2) : icSum l1 = icSum l2 := by
  unfold icSum
  exact (h.map icOf).sum_eq

theorem icSum_append (l1 l2 : List Task) : icSum (l1 ++ l2) = icSum l1 + icSum l2 := by
  simp [icSum]

theorem noFinOpenBid_spec {tasks : List Task} {bid : Nat}
    (h : noFinOpenBid tasks bid = true) :
    ∀ k txs pos, Task.finOpen bid k txs pos ∉ tasks := by
  intro k txs pos hm
  have h2 := List.all_eq_true.mp h _ hm
  simp at h2

/-- The length of `pendKeys` over the spawned tasks equals their count:
every spawned task is a `finOpen`. -/
theorem spawnFins_pendKeys_len (env : Env) (bid : Nat) (log : List Tx)
    (output : List Tx) :
    (pendKeys (spawnFins env bid log output)).length =
      (spawnFins env bid log output).length := by
  induction output with
  | nil => simp [spawnFins, pendKeys]
  | cons t rest ih =>
    by_cases ho : t.openFlag = true
    · by_cases hcl : (builtPos env log t.position).isClosed = true
      · have h2 : spawnFins env bid log (t :: rest) = spawnFins env bid log rest := by
          simp [spawnFins, ho, hcl]
        rw [h2]
        exact ih
      · have h2 : spawnFins env bid log (t :: rest) =
            Task.finOpen bid t.position (collectTxs env log t.position)
              (builtPos env log t.position) :: spawnFins env bid log rest := by
          simp [spawnFins, ho, hcl]
        rw [h2]
        simp [pendKeys]
        simpa [pendKeys] using ih
    · have h2 : spawnFins env bid log (t :: rest) = spawnFins env bid log rest := by
        simp [spawnFins, ho]
      rw [h2]
      exact ih

/-- Erasing one in-list task: the pending-key multiset view. -/
theorem pendKeys_erase_perm {tasks : List Task} {t : Task} (h : t ∈ tasks) :
    (pendKeys tasks).Perm (pendKeys (t :: tasks.erase t)) :=
  pendKeys_perm (List.perm_cons_erase h)

/-! ### Preservation of the structural invariants -/

/-- Anything in the gate's output was already delivered, is the terminal
signal, or is the forwarded candidate itself. -/
theorem push_out_mem (s : St) (c : Option OutEv) {x : OutEv}
    (hx : x ∈ (push s c).out) : x ∈ s.out ∨ x = OutEv.term ∨ c = some x := by
  unfold push emitOut at hx
  split_ifs at hx with h1 h2 h3
  · cases c with
    | none =>
      simp at hx
      rcases hx with hx1 | hx1
      · exact Or.inl hx1
      · exact Or.inr (Or.inl hx1)
    | some e =>
      simp at hx
      rcases hx with hx1 | hx1
      · exact Or.inl hx1
      · exact Or.inr (Or.inr (by rw [hx1]))
  · simp at hx
    rcases hx with hx1 | hx1
    · exact Or.inl hx1
    · exact Or.inr (Or.inl hx1)
  · exact Or.inl hx
  · cases c with
    | none =>
      simp at hx
      rcases hx with hx1 | hx1
      · exact Or.inl hx1
      · exact Or.inr (Or.inl hx1)
    | some e =>
      simp at hx
      rcases hx with hx1 | hx1
      · exact Or.inl hx1
      · exact Or.inr (Or.inr (by rw [hx1]))

theorem invB_push (s : St) (c : Option OutEv) (h : InvB s)
    (hc : ∀ e, c = some e → isPosTxEv e = false)
    (hu : ∀ n, c ≠ some (OutEv.uop n)) : InvB (push s c) := by
  have hnu : ∀ n, OutEv.uop n ∉ (push s c).out := by
    intro n hmem
    rcases push_out_mem s c hmem with hx | hx | hx
    · exact h.noUop n hx
    · cases hx
    · exact hu n hx
  unfold push
  split_ifs with h1 h2 h3
  · cases c with
    | none =>
      exact { h with
        emis := by simpa [emitOut, countPosTx, List.countP_append, isTermEv] using h.emis
        aug := by
          intro txs pos hm hcl
          simp only [emitOut] at hm
          rcases List.mem_append.mp hm with hm1 | hm2
          · exact h.aug txs pos hm1 hcl
          · simp at hm2
        noUop := by
          intro n hm
          simp only [emitOut] at hm
          rcases List.mem_append.mp hm with hm1 | hm2
          · exact h.noUop n hm1
          · simp at hm2 }
    | some e =>
      have he : isPosTxEv e = false := hc e rfl
      have hue : ∀ n, e ≠ OutEv.uop n := by
        intro n hx
        exact hu n (by rw [hx])
      exact { h with
        emis := by simpa [emitOut, countPosTx, List.countP_append, he] using h.emis
        aug := by
          intro txs pos hm hcl
          simp only [emitOut] at hm
          rcases List.mem_append.mp hm with hm1 | hm2
          · exact h.aug txs pos hm1 hcl
          · simp at hm2
            rw [← hm2] at he
            simp [isPosTxEv] at he
        noUop := by
          intro n hm
          simp only [emitOut] at hm
          rcases List.mem_append.mp hm with hm1 | hm2
          · exact h.noUop n hm1
          · simp at hm2
            exact hue n hm2.symm }
  · exact { h with
      emis := by simpa [emitOut, countPosTx, List.countP_append, isTermEv] using h.emis
      aug := by
        intro txs pos hm hcl
        simp only [emitOut] at hm
        rcases List.mem_append.mp hm with hm1 | hm2
        · exact h.aug txs pos hm1 hcl
        · simp at hm2
      noUop := by
        intro n hm
        simp only [emitOut] at hm
        rcases List.mem_append.mp hm with hm1 | hm2
        · exact h.noUop n hm1
        · simp at hm2
      cImp := fun _ => h2.1 }
  · exact h
  · cases c with
    | none =>
      exact { h with
        emis := by simpa [emitOut, countPosTx, List.countP_append, isTermEv] using h.emis
        aug := by
          intro txs pos hm hcl
          simp only [emitOut] at hm
          rcases List.mem_append.mp hm with hm1 | hm2
          · exact h.aug txs pos hm1 hcl
          · simp at hm2
        noUop := by
          intro n hm
          simp only [emitOut] at hm
          rcases List.mem_append.mp hm with hm1 | hm2
          · exact h.noUop n hm1
          · simp at hm2 }
    | some e =>
      have he : isPosTxEv e = false := hc e rfl
      have hue : ∀ n, e ≠ OutEv.uop n := by
        intro n hx
        exact hu n (by rw [hx])
      exact { h with
        emis := by simpa [emitOut, countPosTx, List.countP_append, he] using h.emis
        aug := by
          intro txs pos hm hcl
          simp only [emitOut] at hm
          rcases List.mem_append.mp hm with hm1 | hm2
          · exact h.aug txs pos hm1 hcl
          · simp at hm2
            rw [← hm2] at he
            simp [isPosTxEv] at he
        noUop := by
          intro n hm
          simp only [emitOut] at hm
          rcases List.mem_append.mp hm with hm1 | hm2
          · exact h.noUop n hm1
          · simp at hm2
            exact hue n hm2.symm }

theorem invB_finish (s : St) (h : InvB s) : InvB (finish s) := by
  unfold finish
  split_ifs with h1
  · apply invB_push
    · exact { h with dImp := fun _ => h1.1 }
    · intro e he
      cases he
    · intro n hn
      cases hn
  · exact h

theorem countPosTx_append (l1 l2 : List OutEv) :
    countPosTx (l1 ++ l2) = countPosTx l1 + countPosTx l2 := by
  simp [countPosTx, List.countP_append]

theorem countTerm_append (l1 l2 : List OutEv) :
    countTerm (l1 ++ l2) = countTerm l1 + countTerm l2 := by
  simp [countTerm, List.countP_append]

theorem countOpen_append (l1 l2 : List Tx) :
    countOpen (l1 ++ l2) = countOpen l1 + countOpen l2 := by
  simp [countOpen, List.countP_append]

theorem push_countPosTx (s : St) (c : Option OutEv)
    (hc : ∀ e, c = some e → isPosTxEv e = false) :
    countPosTx (push s c).out = countPosTx s.out := by
  cases c with
  | none =>
    unfold push emitOut
    split_ifs <;> simp [countPosTx, List.countP_append, isPosTxEv]
  | some e =>
    have he := hc e rfl
    unfold push emitOut
    split_ifs with h1 h2 h3
    · simp [countPosTx, List.countP_append, he]
    · simp [countPosTx, List.countP_append, isPosTxEv]
    · rfl
    · simp [countPosTx, List.countP_append, he]

theorem push_mem_posTx (s : St) (c : Option OutEv)
    (hc : ∀ e, c = some e → isPosTxEv e = false) :
    ∀ txs pos, OutEv.posTx txs pos ∈ (push s c).out → OutEv.posTx txs pos ∈ s.out := by
  intro txs pos hm
  cases c with
  | none =>
    unfold push emitOut at hm
    split_ifs at hm <;> simp_all
  | some e =>
    have he := hc e rfl
    unfold push emitOut at hm
    split_ifs at hm with h1 h2 h3
    · simp at hm
      rcases hm with hm1 | hm1
      · exact hm1
      · rw [← hm1] at he
        simp [isPosTxEv] at he
    · simp_all
    · exact hm
    · simp at hm
      rcases hm with hm1 | hm1
      · exact hm1
      · rw [← hm1] at he
        simp [isPosTxEv] at he

theorem push_cancelled_state (s : St) (c : Option OutEv) :
    (push s c).cancelled = true → s.cancelled = true ∨ s.cancelling = true := by
  unfold push emitOut
  split_ifs with h1 h2 h3 <;> cases c <;> intro h <;> simp_all

/-- Preservation of the structural invariants across a resolved
non-empty batch transform with non-empty output. -/
theorem invB_transformCore (env : Env) (s : St) (raws : List Nat) (h : InvB s)
    (hlen : 0 < raws.length) : InvB (transformCore env s raws) := by
  have hcnp : ∀ e2, some (OutEv.txCount (s.log ++ env.classify raws).length) = some e2 →
      isPosTxEv e2 = false := by
    intro e2 he2
    cases he2
    rfl
  set output := env.classify raws with hodef
  set s2 : St := { s with log := s.log ++ output } with hs2
  set u := push s2 (some (OutEv.txCount (s.log ++ output).length)) with hu
  obtain ⟨w, hwout, huinit, hurecAll, hurec, huproc, hulog, hudone, hucg, hupend,
    huqueue, hutasks, hubid, hudel, hudr, hulost, hufs, hufd, husnap⟩ :=
    push_frame s2 (some (OutEv.txCount (s.log ++ output).length))
  have hcore : transformCore env s raws =
      { u with pending := spawnPend env u.log u.pending output
               tasks := (u.tasks ++ spawnFins env s.nextBid u.log output) ++
                 [Task.afterJoin s.nextBid raws.length]
               out := u.out ++ spawnEvs env u.log output
               finStarts := u.finStarts + countOpen output
               finDone := u.finDone + countPosTx (spawnEvs env u.log output)
               nextBid := u.nextBid + 1 } := by
    rw [show transformCore env s raws =
        { spawnFinalizes env s.nextBid u output with
          tasks := (spawnFinalizes env s.nextBid u output).tasks ++
            [Task.afterJoin s.nextBid raws.length]
          nextBid := (spawnFinalizes env s.nextBid u output).nextBid + 1 } from rfl]
    rw [spawn_eq env s.nextBid output u]
  rw [hcore]
  have hulog2 : u.log = s.log ++ output := by rw [hulog]
  have hupend2 : u.pending = s.pending := by rw [hupend]
  have hutasks2 : u.tasks = s.tasks := by rw [hutasks]
  have hufs2 : u.finStarts = s.finStarts := by rw [hufs]
  have hufd2 : u.finDone = s.finDone := by rw [hufd]
  rw [hulog2, hupend2, hutasks2, hufs2, hufd2]
  have hsplit := spawn_count_split env s.nextBid (s.log ++ output) output
  have hpklen := spawnFins_pendKeys_len env s.nextBid (s.log ++ output) output
  have hposTxu : countPosTx u.out = countPosTx s.out := by
    rw [hu]
    exact push_countPosTx s2 _ hcnp
  constructor
  · -- bal
    show s.finStarts + countOpen output =
      s.finDone + countPosTx (spawnEvs env (s.log ++ output) output) + _
    rw [pendKeys_append, pendKeys_append]
    have : pendKeys [Task.afterJoin s.nextBid raws.length] = [] := rfl
    rw [this]
    simp only [List.length_append, List.length_nil]
    have hbal := h.bal
    omega
  · -- emis
    show countPosTx (u.out ++ spawnEvs env (s.log ++ output) output) = _
    rw [countPosTx_append, hposTxu, h.emis]
  · -- openAcc
    show s.finStarts + countOpen output = countOpen (s.log ++ output)
    rw [countOpen_append, h.openAcc]
  · -- pend
    intro k
    show (spawnPend env (s.log ++ output) s.pending output).count k = _
    rw [spawnPend_count env s.nextBid (s.log ++ output) output s.pending k]
    rw [pendKeys_append, pendKeys_append]
    have : pendKeys [Task.afterJoin s.nextBid raws.length] = [] := rfl
    rw [this]
    rw [List.count_append, List.count_append]
    have := h.pend k
    simp only [List.count_nil]
    omega
  · -- join
    intro bid key txs pos hm
    simp only [List.mem_append] at hm
    rcases hm with (hm1 | hm2) | hm3
    · obtain ⟨ic, hic, hic1⟩ := h.join bid key txs pos hm1
      exact ⟨ic, by simp [hic], hic1⟩
    · obtain ⟨k2, hk2, _⟩ := spawnFins_shape env s.nextBid (s.log ++ output) output _ hm2
      cases hk2
      exact ⟨raws.length, by simp, hlen⟩
    · simp at hm3
  · -- aug
    intro txs pos hm hcl
    simp only [List.mem_append] at hm
    rcases hm with hm1 | hm2
    · have hm0 : OutEv.posTx txs pos ∈ s.out := by
        rw [hu] at hm1
        exact push_mem_posTx s2 _ hcnp txs pos hm1
      exact h.aug txs pos hm0 hcl
    · obtain ⟨k2, hk2, hk3⟩ := spawnEvs_shape env (s.log ++ output) output _ hm2
      cases hk2
      rw [hcl] at hk3
      cases hk3
  · -- noUop
    intro n hm
    have hm0 : OutEv.uop n ∈ u.out ++ spawnEvs env (s.log ++ output) output := hm
    rcases List.mem_append.mp hm0 with hm1 | hm2
    · have hm3 := push_out_mem s2 (some (OutEv.txCount (s.log ++ output).length)) hm1
      rcases hm3 with hx | hx | hx
      · exact h.noUop n hx
      · simp at hx
      · simp at hx
    · obtain ⟨k2, hk2, _⟩ := spawnEvs_shape env (s.log ++ output) output _ hm2
      simp at hk2
  · -- cImp
    intro hcd
    have : u.cancelled = true := hcd
    have h2 := push_cancelled_state s2 _ this
    have hcg : u.cancelling = s.cancelling := by rw [hucg]
    rcases h2 with h3 | h3
    · rw [hcg]
      exact h.cImp h3
    · rw [hcg]
      exact h3
  · -- dImp
    intro hd
    have hdone : u.done = s.done := by rw [hudone]
    have hra : u.receivedAll = s.receivedAll := by rw [hurecAll]
    rw [hra]
    exact h.dImp (hdone ▸ hd)
  · -- snap
    intro sc dc hsnap
    have hs : u.cancelSnap = s.cancelSnap := by rw [husnap]
    have hsnap2 : u.cancelSnap = some (sc, dc) := hsnap
    rw [hs] at hsnap2
    have := h.snap sc dc hsnap2
    show sc ≤ s.finStarts + countOpen output
    omega

theorem pendKeys_cons (t : Task) (l : List Task) :
    pendKeys (t :: l) = pendKeys [t] ++ pendKeys l := by
  cases t <;> simp [pendKeys]

/-- Erasing an in-flight task that is neither a `finOpen` nor an
`afterJoin` (a transform or a drain-loop iteration) keeps the structural
invariants. -/
theorem invB_erase_plain (s : St) (t : Task) (h : InvB s) (ht : t ∈ s.tasks)
    (hpk : pendKeys [t] = [])
    (hnj : ∀ bid ic, t ≠ Task.afterJoin bid ic) :
    InvB { s with tasks := s.tasks.erase t } := by
  have hperm := pendKeys_erase_perm ht
  have hcons := pendKeys_cons t (s.tasks.erase t)
  have heq : (pendKeys s.tasks).length = (pendKeys (s.tasks.erase t)).length := by
    rw [hperm.length_eq, hcons, hpk]
    simp
  have hcnt : ∀ k, (pendKeys s.tasks).count k = (pendKeys (s.tasks.erase t)).count k := by
    intro k
    rw [hperm.count_eq, hcons, hpk]
    simp
  exact { h with
    bal := by rw [h.bal, heq]
    pend := fun k => by rw [h.pend k, hcnt k]
    join := by
      intro bid key txs pos hm
      have hm2 : Task.finOpen bid key txs pos ∈ s.tasks := List.erase_subset _ _ hm
      obtain ⟨ic, hic, hic1⟩ := h.join bid key txs pos hm2
      refine ⟨ic, ?_, hic1⟩
      have hne : Task.afterJoin bid ic ≠ t := fun hh => (hnj bid ic hh.symm)
      exact (List.mem_erase_of_ne hne).mpr hic }

/-- Appending a task that is not a `finOpen` keeps the structural
invariants. -/
theorem invB_addTask (s : St) (t : Task) (h : InvB s) (hpk : pendKeys [t] = []) :
    InvB { s with tasks := s.tasks ++ [t] } := by
  exact { h with
    bal := by
      rw [pendKeys_append, hpk]
      simpa using h.bal
    pend := fun k => by
      rw [pendKeys_append, hpk]
      simpa using h.pend k
    join := by
      intro bid key txs pos hm
      rcases List.mem_append.mp hm with hm1 | hm2
      · obtain ⟨ic, hic, hic1⟩ := h.join _ _ _ _ hm1
        exact ⟨ic, List.mem_append.mpr (Or.inl hic), hic1⟩
      · simp at hm2
        rw [← hm2] at hpk
        simp [pendKeys] at hpk }

/-- Erasing a runnable `afterJoin` (its batch has no finalize step in
flight) keeps the structural invariants. -/
theorem invB_erase_join (s : St) (bid : Nat) (ic : Nat) (h : InvB s)
    (hm : Task.afterJoin bid ic ∈ s.tasks)
    (hrun : noFinOpenBid s.tasks bid = true) :
    InvB { s with tasks := s.tasks.erase (Task.afterJoin bid ic) } := by
  have hperm := pendKeys_erase_perm hm
  have hcons := pendKeys_cons (Task.afterJoin bid ic) (s.tasks.erase (Task.afterJoin bid ic))
  have hpk : pendKeys [Task.afterJoin bid ic] = [] := rfl
  have heq : (pendKeys s.tasks).length =
      (pendKeys (s.tasks.erase (Task.afterJoin bid ic))).length := by
    rw [hperm.length_eq, hcons, hpk]
    simp
  have hcnt : ∀ k, (pendKeys s.tasks).count k =
      (pendKeys (s.tasks.erase (Task.afterJoin bid ic))).count k := by
    intro k
    rw [hperm.count_eq, hcons, hpk]
    simp
  exact { h with
    bal := by rw [h.bal, heq]
    pend := fun k => by rw [h.pend k, hcnt k]
    join := by
      intro bid2 key txs pos hm2
      have hm3 : Task.finOpen bid2 key txs pos ∈ s.tasks := List.erase_subset _ _ hm2
      obtain ⟨ic2, hic, hic1⟩ := h.join bid2 key txs pos hm3
      refine ⟨ic2, ?_, hic1⟩
      have hbne : bid2 ≠ bid := by
        intro hbb
        rw [hbb] at hm3
        exact noFinOpenBid_spec hrun key txs pos hm3
      have hne : Task.afterJoin bid2 ic2 ≠ Task.afterJoin bid ic := by
        intro hx
        cases hx
        exact hbne rfl
      exact (List.mem_erase_of_ne hne).mpr hic }

/-- Preservation across a resumed open-position finalize step (the tail
of `_createPosition` after `updateOpenPosition` resolves). -/
theorem invB_updateOpen (s : St) (bid : Nat) (key : Nat) (txs : List Tx) (pos : Pos)
    (h : InvB s) (hm : Task.finOpen bid key txs pos ∈ s.tasks) :
    InvB (updateOpenResume
      { s with tasks := s.tasks.erase (Task.finOpen bid key txs pos) } key txs pos) := by
  have hperm := pendKeys_erase_perm hm
  have hcons := pendKeys_cons (Task.finOpen bid key txs pos)
    (s.tasks.erase (Task.finOpen bid key txs pos))
  have hpk : pendKeys [Task.finOpen bid key txs pos] = [key] := rfl
  have hkeymem : key ∈ pendKeys s.tasks := by
    have : key ∈ pendKeys (Task.finOpen bid key txs pos ::
        s.tasks.erase (Task.finOpen bid key txs pos)) := by
      rw [hcons, hpk]
      simp
    exact hperm.symm.subset this
  have hkeycnt : 0 < s.pending.count key := by
    rw [h.pend key]
    exact List.count_pos_iff.mpr hkeymem
  have hkeypend : key ∈ s.pending := List.count_pos_iff.mp hkeycnt
  have hplen : 0 < s.pending.length := List.length_pos.mpr
    (fun hx => by rw [hx] at hkeypend; cases hkeypend)
  set s0 : St := { s with tasks := s.tasks.erase (Task.finOpen bid key txs pos) }
    with hs0
  have hrule : push s0 (some (OutEv.posTx txs { pos with augmented := true })) =
      emitOut s0 (some (OutEv.posTx txs { pos with augmented := true })) :=
    push_rule1 s0 _ hplen
  have hres : updateOpenResume s0 key txs pos =
      { s0 with out := s0.out ++ [OutEv.posTx txs { pos with augmented := true }]
                pending := s0.pending.erase key
                finDone := s0.finDone + 1 } := by
    unfold updateOpenResume
    rw [hrule]
    rfl
  rw [hres]
  have hlen2 : (pendKeys s.tasks).length =
      (pendKeys (s.tasks.erase (Task.finOpen bid key txs pos))).length + 1 := by
    rw [hperm.length_eq, hcons, hpk]
    simp
  refine { bal := ?_, emis := ?_, openAcc := ?_, pend := ?_, join := ?_, aug := ?_,
           noUop := ?_, cImp := h.cImp, dImp := h.dImp, snap := ?_ }
  · show s.finStarts = s.finDone + 1 +
      (pendKeys (s.tasks.erase (Task.finOpen bid key txs pos))).length
    have := h.bal
    rw [this, hlen2]
    omega
  · show countPosTx (s.out ++ [OutEv.posTx txs { pos with augmented := true }]) =
      s.finDone + 1
    rw [countPosTx_append, h.emis]
    simp [countPosTx, isPosTxEv]
  · exact h.openAcc
  · intro k
    show (s.pending.erase key).count k =
      (pendKeys (s.tasks.erase (Task.finOpen bid key txs pos))).count k
    have hpc : s.pending.count k =
        (if key == k then 1 else 0) +
          (pendKeys (s.tasks.erase (Task.finOpen bid key txs pos))).count k := by
      rw [h.pend k, hperm.count_eq, hcons, hpk, List.count_append]
      simp [List.count_singleton]
    by_cases hk : k = key
    · subst hk
      rw [List.count_erase_self, hpc]
      simp
    · rw [List.count_erase_of_ne hk, hpc]
      have hb : (key == k) = false := by
        simp
        exact Ne.symm hk
      simp [hb]
  · intro bid2 key2 txs2 pos2 hm2
    have hm3 : Task.finOpen bid2 key2 txs2 pos2 ∈ s.tasks := List.erase_subset _ _ hm2
    obtain ⟨ic2, hic, hic1⟩ := h.join bid2 key2 txs2 pos2 hm3
    refine ⟨ic2, ?_, hic1⟩
    have hne : Task.afterJoin bid2 ic2 ≠ Task.finOpen bid key txs pos := by
      intro hx
      cases hx
    exact (List.mem_erase_of_ne hne).mpr hic
  · intro txs2 pos2 hm2 hcl2
    rcases List.mem_append.mp hm2 with hm3 | hm4
    · exact h.aug txs2 pos2 hm3 hcl2
    · simp at hm4
      rw [hm4.2]
  · intro n hm
    have hm2 : OutEv.uop n ∈ s.out ++ [OutEv.posTx txs { pos with augmented := true }] := hm
    rcases List.mem_append.mp hm2 with hm3 | hm4
    · exact h.noUop n hm3
    · simp at hm4
  · exact h.snap

theorem invB_transformResume (env : Env) (s : St) (raws : List Nat) (h : InvB s) :
    InvB (transformResume env s raws) := by
  unfold transformResume
  split_ifs with h1 h2
  · exact invB_transformCore env s raws h h1
  · have h2 := invB_addTask s (Task.afterJoin s.nextBid raws.length) h rfl
    exact ⟨h2.bal, h2.emis, h2.openAcc, h2.pend, h2.join, h2.aug, h2.noUop, h2.cImp,
      h2.dImp, h2.snap⟩
  · exact invB_finish s h

theorem invB_processBatchStart (s : St) (h : InvB s) : InvB (processBatchStart s) := by
  unfold processBatchStart
  split_ifs with h1
  · cases hq : s.queue with
    | nil => exact invB_finish s h
    | cons b rest =>
      have h2 : InvB { s with queue := rest, drained := s.drained + 1 } :=
        ⟨h.bal, h.emis, h.openAcc, h.pend, h.join, h.aug, h.noUop, h.cImp, h.dImp, h.snap⟩
      exact invB_addTask { s with queue := rest, drained := s.drained + 1 }
        (Task.transform b) h2 rfl
  · exact h

theorem invB_drainResume (s : St) (h : InvB s) : InvB (drainResume s) := by
  unfold drainResume
  split_ifs with h1 h2
  · exact h
  · exact invB_addTask s Task.drainLoop h rfl
  · cases hq : s.queue with
    | nil => exact invB_addTask (finish s) Task.drainLoop (invB_finish s h) rfl
    | cons b rest =>
      have h2 : InvB { s with queue := rest, drained := s.drained + 1 } :=
        ⟨h.bal, h.emis, h.openAcc, h.pend, h.join, h.aug, h.noUop, h.cImp, h.dImp, h.snap⟩
      have h3 := invB_addTask { s with queue := rest, drained := s.drained + 1 }
        (Task.transform b) h2 rfl
      have h4 := invB_addTask
        { s with queue := rest, drained := s.drained + 1,
                 tasks := s.tasks ++ [Task.transform b] } Task.drainLoop h3 rfl
      show InvB { s with queue := rest, drained := s.drained + 1,
                         tasks := s.tasks ++ [Task.transform b, Task.drainLoop] }
      have hsplit : s.tasks ++ [Task.transform b, Task.drainLoop] =
          (s.tasks ++ [Task.transform b]) ++ [Task.drainLoop] := by simp
      rw [hsplit]
      exact h4

/-- Every step of the transition system preserves the structural
invariants. -/
theorem invB_step (env : Env) (s : St) (e : Ev) (h : InvB s) : InvB (step env s e) := by
  cases e with
  | initEv =>
    exact ⟨h.bal, h.emis, h.openAcc, h.pend, h.join, h.aug, h.noUop, h.cImp, h.dImp, h.snap⟩
  | sigCount n =>
    show InvB (if s.initDone then parseSignalSigCount s n else s)
    split_ifs with hi
    · have h1 : InvB { s with received := n } :=
        ⟨h.bal, h.emis, h.openAcc, h.pend, h.join, h.aug, h.noUop, h.cImp, h.dImp, h.snap⟩
      exact invB_finish _ (invB_push _ _ h1 (by intro e2 he2; cases he2; rfl)
        (by intro n2 hn; simp at hn))
    · exact h
  | allFound =>
    show InvB (if s.initDone then parseSignalAllFound s else s)
    split_ifs with hi
    · have h1 : InvB { s with receivedAll := true } :=
        ⟨h.bal, h.emis, h.openAcc, h.pend, h.join, h.aug, h.noUop, h.cImp, fun _ => rfl, h.snap⟩
      exact invB_finish _ (invB_push _ _ h1 (by intro e2 he2; cases he2; rfl)
        (by intro n2 hn; simp at hn))
    · exact h
  | batch raws =>
    show InvB (if s.initDone then batchStep s raws else s)
    split_ifs with hi
    · have h1 : InvB { s with queue := s.queue ++ [raws],
                              delivered := s.delivered + raws.length } :=
        ⟨h.bal, h.emis, h.openAcc, h.pend, h.join, h.aug, h.noUop, h.cImp, h.dImp, h.snap⟩
      exact invB_processBatchStart _ h1
    · exact h
  | srcEnd =>
    show InvB (if s.initDone then srcEndStep s else s)
    split_ifs with hi
    · unfold srcEndStep
      have h1 : InvB { s with receivedAll := true } :=
        ⟨h.bal, h.emis, h.openAcc, h.pend, h.join, h.aug, h.noUop, h.cImp, fun _ => rfl, h.snap⟩
      split_ifs with hc
      · exact h1
      · exact invB_addTask { s with receivedAll := true } Task.drainLoop h1 rfl
    · exact h
  | srcError =>
    show InvB (if s.initDone then { s with out := s.out ++ [OutEv.errEv] } else s)
    split_ifs with hi
    · refine { h with emis := ?_, aug := ?_, noUop := ?_ }
      · show countPosTx (s.out ++ [OutEv.errEv]) = s.finDone
        rw [countPosTx_append, h.emis]
        simp [countPosTx, isPosTxEv]
      · intro txs pos hm hcl
        rcases List.mem_append.mp hm with hm1 | hm2
        · exact h.aug txs pos hm1 hcl
        · simp at hm2
      · intro n hm
        rcases List.mem_append.mp hm with hm1 | hm2
        · exact h.noUop n hm1
        · simp at hm2
    · exact h
  | cancel =>
    show InvB (cancelStep s)
    unfold cancelStep cancelMethod
    by_cases hi : s.initDone = true
    · rw [if_pos hi]
      show InvB { s with cancelling := true,
                         cancelSnap := if s.cancelSnap = none ∧ countTerm s.out = 0 then
                             some (s.finStarts, s.finDone) else s.cancelSnap }
      by_cases hcs : s.cancelSnap = none ∧ countTerm s.out = 0
      · rw [if_pos hcs]
        refine { h with cImp := fun _ => rfl, snap := ?_ }
        intro sc dc hsnap
        have hsnap2 : some (s.finStarts, s.finDone) = some (sc, dc) := hsnap
        injection hsnap2 with hx
        injection hx with hx1 hx2
        show sc ≤ s.finStarts
        omega
      · rw [if_neg hcs]
        exact { h with cImp := fun _ => rfl }
    · rw [if_neg hi]
      exact h
  | runTask t =>
    show InvB (runTaskStep env s t)
    unfold runTaskStep
    split_ifs with hmem
    · cases t with
      | transform raws =>
        have h0 := invB_erase_plain s (Task.transform raws) h hmem rfl
          (by intro bid ic hx; cases hx)
        exact invB_transformResume env _ raws h0
      | finOpen bid key txs pos =>
        exact invB_updateOpen s bid key txs pos h hmem
      | afterJoin bid ic =>
        show InvB (if noFinOpenBid s.tasks bid = true then
            afterJoinResume { s with tasks := s.tasks.erase (Task.afterJoin bid ic) } ic
          else s)
        split_ifs with hrun
        · have h0 := invB_erase_join s bid ic h hmem hrun
          have h1 : InvB { s with tasks := s.tasks.erase (Task.afterJoin bid ic),
                                  processed := s.processed + ic } :=
            ⟨h0.bal, h0.emis, h0.openAcc, h0.pend, h0.join, h0.aug, h0.noUop, h0.cImp,
              h0.dImp, h0.snap⟩
          exact invB_finish _ h1
        · exact h
      | drainLoop =>
        have h0 := invB_erase_plain s Task.drainLoop h hmem rfl
          (by intro bid ic hx; cases hx)
        exact invB_drainResume _ h0
    · exact h
  | failTransform raws =>
    show InvB (if Task.transform raws ∈ s.tasks then _ else s)
    split_ifs with hmem
    · have h0 := invB_erase_plain s (Task.transform raws) h hmem rfl
        (by intro bid ic hx; cases hx)
      exact ⟨h0.bal, h0.emis, h0.openAcc, h0.pend, h0.join, h0.aug, h0.noUop, h0.cImp,
        h0.dImp, h0.snap⟩
    · exact h

theorem invB_init : InvB initSt := by
  refine { bal := rfl, emis := rfl, openAcc := rfl, pend := fun k => rfl,
           join := ?_, aug := ?_, noUop := ?_, cImp := ?_, dImp := ?_, snap := ?_ } <;>
    intro a <;> simp [initSt] at *

/-- The structural invariants hold in every reachable state. -/
theorem invB_exec_aux (env : Env) (sched : List Ev) : ∀ s : St, InvB s →
    InvB (sched.foldl (step env) s) := by
  induction sched with
  | nil => intro s h; exact h
  | cons e rest ih =>
    intro s h
    exact ih (step env s e) (invB_step env s e h)

theorem invB_exec (env : Env) (sched : List Ev) : InvB (exec env sched) :=
  invB_exec_aux env sched initSt invB_init

/-! ### Claim theorems: the gate (C2) -/

/-- C2: for every candidate output chunk, the overridden push applies
the four-rule gate in priority order: non-empty pending set → emit;
else cancellation requested and not finalized → emit the terminal signal
instead and mark cancellation finalized; else cancellation finalized →
drop silently; else emit normally.  The code's gate agrees with the
spec's rule list on every state and candidate. -/
theorem C2_push_gate_four_rules (s : St) (c : Option OutEv) :
    push s c = gateSpec s c := by
  unfold push gateSpec
  by_cases hp : s.pending = []
  · simp [hp]
  · simp [hp, List.length_pos.mpr hp]

/-! ### Claim theorems: the completion check (C3) -/

/-- C3: absent cancellation, `_finish` appends the terminal signal to
the listener-visible output iff `allSignaturesFound` holds, the
processed count equals the received count, and the stream is not already
done; and this check runs after every forwarded progress signal
(`parseSignalSigCount`, `parseSignalAllFound`) and after every batch
drain (the `afterJoinResume` tail of `_processBatch`), whose outputs are
exactly the forwarded signal followed by the terminal signal when the
condition holds. -/
theorem C3_completion_check (s : St) (n : Nat) (ic : Nat)
    (hcg : s.cancelling = false) (hcd : s.cancelled = false) :
    ((finish s).out = s.out ++ [OutEv.term] ↔
      (s.receivedAll = true ∧ s.received = s.processed ∧ s.done = false)) ∧
    (parseSignalSigCount s n).out =
      s.out ++ [OutEv.sigCount n] ++
        (if s.receivedAll = true ∧ n = s.processed ∧ s.done = false then
          [OutEv.term] else []) ∧
    (parseSignalAllFound s).out =
      s.out ++ [OutEv.allFound] ++
        (if s.received = s.processed ∧ s.done = false then [OutEv.term] else []) ∧
    (afterJoinResume s ic).out =
      s.out ++
        (if s.receivedAll = true ∧ s.received = s.processed + ic ∧ s.done = false then
          [OutEv.term] else []) := by
  refine ⟨?_, ?_, ?_, ?_⟩
  · rw [finish_out s hcg hcd]
    constructor
    · intro h
      by_contra hc
      rw [if_neg hc] at h
      simp at h
    · intro h
      rw [if_pos h]
  · have h1 : push { s with received := n } (some (OutEv.sigCount n)) =
        { s with received := n, out := s.out ++ [OutEv.sigCount n] } := by
      rw [push_no_cancel { s with received := n } (some (OutEv.sigCount n)) hcg hcd]
      rfl
    unfold parseSignalSigCount
    rw [h1, finish_out { s with received := n, out := s.out ++ [OutEv.sigCount n] }
      hcg hcd]
    try simp
  · have h1 : push { s with receivedAll := true } (some OutEv.allFound) =
        { s with receivedAll := true, out := s.out ++ [OutEv.allFound] } := by
      rw [push_no_cancel { s with receivedAll := true } (some OutEv.allFound) hcg hcd]
      rfl
    unfold parseSignalAllFound
    rw [h1, finish_out { s with receivedAll := true, out := s.out ++ [OutEv.allFound] }
      hcg hcd]
    try simp
  · unfold afterJoinResume
    rw [finish_out { s with processed := s.processed + ic } hcg hcd]

/-- Witness for C3 at a concrete state: with all transactions received,
counts equal and the stream not done, the signal path emits the signal
and then the terminal. -/
theorem C3_witness :
    (parseSignalSigCount { initSt with receivedAll := true } 0).out =
      [OutEv.sigCount 0, OutEv.term] := by
  have h := (C3_completion_check { initSt with receivedAll := true } 0 0 rfl rfl).2.1
  simpa using h

/-! ### Claim theorems: `cancel()` before initialization (C10) -/

/-- C10: before `_init`'s awaited pool-pair fetch completes,
`_transactionStream` is unassigned, so `cancel()` throws instead of
recording the request: the call errors and the cancelling flag is not
set (the state is unchanged). -/
theorem C10_cancel_throws_before_init (s : St) (h : s.initDone = false) :
    cancelMethod s = Except.error () ∧ cancelStep s = s := by
  constructor
  · simp [cancelMethod, h]
  · simp [cancelStep, cancelMethod, h]

/-- Witness for C10: on the freshly constructed stream, `cancel()`
throws and leaves the cancelling flag unset. -/
theorem C10_witness :
    cancelMethod initSt = Except.error () ∧ cancelStep initSt = initSt ∧
      initSt.cancelling = false := by
  have h := C10_cancel_throws_before_init initSt rfl
  exact ⟨h.1, h.2, rfl⟩

/-! ### Counterexamples from concrete executions -/

/-- C1 counterexample: in the well-formed execution where `cancel()`
arrives while the only batch's classifier transform is in flight, the
terminal signal (emitted by gate rule 2 when the resumed batch pushes
its `transactionCount`) is followed by two `positionAndTransactions`
data events — data is emitted to listeners after the terminal `null`. -/
theorem C1_counterexample :
    wfOk schedCancelResumed = true ∧
    countTerm (exec envA schedCancelResumed).out = 1 ∧
    countPosTx (afterTerm (exec envA schedCancelResumed).out) = 2 := by decide

/-- C4 counterexample: in the same execution, no finalize step is in
flight when `cancel()` is requested (`finStarts = 0`), yet two finalize
steps start afterwards — and their emissions even land after the
terminal signal.  This refutes "no new finalize step starts" after
`cancel()`. -/
theorem C4_counterexample :
    wfOk schedCancelResumed = true ∧
    (exec envA schedCancelMidTransform).cancelling = true ∧
    (exec envA schedCancelMidTransform).finStarts = 0 ∧
    (exec envA schedCancelResumed).finStarts = 2 ∧
    countPosTx (afterTerm (exec envA schedCancelResumed).out) = 2 := by decide

/-- C5 counterexample: a completed execution whose single classified
transaction is not an `open` trigger: the log holds one distinct
position key but zero `positionAndTransactions` events were emitted
(the run is fully finished: no tasks remain and the terminal signal was
produced). -/
theorem C5_counterexample :
    wfOk schedLoneNonOpen = true ∧
    countPosTx (exec envB schedLoneNonOpen).out = 0 ∧
    ((exec envB schedLoneNonOpen).log.map (fun t => t.position)).dedup.length = 1 ∧
    (exec envB schedLoneNonOpen).tasks = [] ∧
    (exec envB schedLoneNonOpen).done = true := by decide

/-- C6 counterexample: a finalized position whose aggregate is not
closed is emitted (after the augmenter ran), but no
`updatingOpenPositions` event is emitted anywhere in the run — the
class declares that event type yet never produces it. -/
theorem C6_counterexample :
    wfOk schedOneOpenPosition = true ∧
    countUop (exec envC schedOneOpenPosition).out = 0 ∧
    (exec envC schedOneOpenPosition).out.countP
      (fun e => match e with
        | OutEv.posTx _ p => !p.isClosed
        | _ => false) = 1 := by decide

/-! ### Lemmas about the event list around the terminal signal -/

theorem afterTerm_eq_nil {l : List OutEv} (h : countTerm l = 0) : afterTerm l = [] := by
  induction l with
  | nil => rfl
  | cons e rest ih =>
    rw [countTerm, List.countP_cons] at h
    by_cases he : isTermEv e = true
    · simp [he] at h
    · have he2 : isTermEv e = false := by simpa using he
      simp [he2] at h
      have := ih (by simpa [countTerm] using h)
      simpa [afterTerm, List.dropWhile, he2] using this

theorem afterTerm_append_no_term {l : List OutEv} (w : List OutEv)
    (h : countTerm l = 0) : afterTerm (l ++ w) = afterTerm w := by
  induction l with
  | nil => rfl
  | cons e rest ih =>
    rw [countTerm, List.countP_cons] at h
    by_cases he : isTermEv e = true
    · simp [he] at h
    · have he2 : isTermEv e = false := by simpa using he
      simp [he2] at h
      have := ih (by simpa [countTerm] using h)
      simpa [afterTerm, List.dropWhile, he2] using this

theorem afterTerm_append_term {l : List OutEv} (w : List OutEv)
    (h : 0 < countTerm l) : afterTerm (l ++ w) = afterTerm l ++ w := by
  induction l with
  | nil => simp [countTerm] at h
  | cons e rest ih =>
    by_cases he : isTermEv e = true
    · simp [afterTerm, List.dropWhile, he]
    · have he2 : isTermEv e = false := by simpa using he
      rw [countTerm, List.countP_cons] at h
      simp [he2] at h
      have := ih (by simpa [countTerm] using h)
      simpa [afterTerm, List.dropWhile, he2] using this

theorem beforeTerm_append_no_term {l : List OutEv} (w : List OutEv)
    (h : countTerm l = 0) : beforeTerm (l ++ w) = l ++ beforeTerm w := by
  induction l with
  | nil => rfl
  | cons e rest ih =>
    rw [countTerm, List.countP_cons] at h
    by_cases he : isTermEv e = true
    · simp [he] at h
    · have he2 : isTermEv e = false := by simpa using he
      simp [he2] at h
      have := ih (by simpa [countTerm] using h)
      simpa [beforeTerm, List.takeWhile, he2] using this

theorem beforeTerm_append_term {l : List OutEv} (w : List OutEv)
    (h : 0 < countTerm l) : beforeTerm (l ++ w) = beforeTerm l := by
  induction l with
  | nil => simp [countTerm] at h
  | cons e rest ih =>
    by_cases he : isTermEv e = true
    · simp [beforeTerm, List.takeWhile, he]
    · have he2 : isTermEv e = false := by simpa using he
      rw [countTerm, List.countP_cons] at h
      simp [he2] at h
      have := ih (by simpa [countTerm] using h)
      simpa [beforeTerm, List.takeWhile, he2] using this

theorem afterTerm_term_cons (l : List OutEv) : afterTerm (OutEv.term :: l) = l := by
  simp [afterTerm, List.dropWhile, isTermEv]

theorem beforeTerm_term_cons (l : List OutEv) : beforeTerm (OutEv.term :: l) = [] := by
  simp [beforeTerm, List.takeWhile, isTermEv]

theorem countTerm_spawnEvs (env : Env) (log : List Tx) (output : List Tx) :
    countTerm (spawnEvs env log output) = 0 := by
  rw [countTerm, List.countP_eq_zero]
  intro e he
  obtain ⟨k, hk, _⟩ := spawnEvs_shape env log output e he
  rw [hk]
  simp [isTermEv]

/-- In a state whose pending list is non-empty, some batch's input count
is still unprocessed, so the completion condition cannot hold. -/
theorem pending_blocks_finish (s : St) (hB : InvB s)
    (hacc : s.processed + icSum s.tasks + qSum s.queue + s.lost = s.delivered)
    (hdr : s.delivered ≤ s.received)
    (hp : s.pending ≠ []) : ¬s.received = s.processed := by
  obtain ⟨k, hk⟩ := List.exists_mem_of_ne_nil s.pending hp
  have hc1 : 0 < s.pending.count k := List.count_pos_iff.mpr hk
  rw [hB.pend k] at hc1
  have hk2 : k ∈ pendKeys s.tasks := List.count_pos_iff.mp hc1
  rw [pendKeys] at hk2
  obtain ⟨t, ht, hft⟩ := List.mem_filterMap.mp hk2
  have hfin : ∃ bid txs pos, t = Task.finOpen bid k txs pos := by
    cases t with
    | finOpen b k2 txs pos =>
      simp at hft
      exact ⟨b, txs, pos, by rw [hft]⟩
    | _ => simp at hft
  obtain ⟨bid, txs, pos, ht2⟩ := hfin
  rw [ht2] at ht
  obtain ⟨ic, hic, hic1⟩ := hB.join bid k txs pos ht
  have hle : icOf (Task.afterJoin bid ic) ≤ icSum s.tasks := by
    unfold icSum
    exact List.single_le_sum (by intro x hx; exact Nat.zero_le x) _
      (List.mem_map_of_mem icOf hic)
  have : 1 ≤ icSum s.tasks := le_trans (by simpa [icOf] using hic1) hle
  omega

/-- An empty pending list forces an empty in-flight finalize set. -/
theorem pending_nil_pendKeys (s : St) (hB : InvB s) (hp : s.pending = []) :
    pendKeys s.tasks = [] := by
  by_contra hne
  obtain ⟨k, hk⟩ := List.exists_mem_of_ne_nil _ hne
  have h1 := hB.pend k
  rw [hp] at h1
  simp at h1
  have h2 := List.count_pos_iff.mpr hk
  omega

/-- The gate's three observable outcomes: forward the candidate, replace
it by the terminal signal (finalizing cancellation), or drop it. -/
theorem push_out_cases (s : St) (c : Option OutEv) :
    ((push s c).out = s.out ++ [c.getD OutEv.term] ∧ (push s c).cancelled = s.cancelled) ∨
    ((push s c).out = s.out ++ [OutEv.term] ∧ s.pending = [] ∧
      s.cancelling = true ∧ s.cancelled = false ∧ (push s c).cancelled = true) ∨
    ((push s c).out = s.out ∧ s.cancelled = true ∧ (push s c).cancelled = s.cancelled) := by
  unfold push emitOut
  split_ifs with h1 h2 h3
  · left
    cases c <;> simp
  · right
    left
    refine ⟨by cases c <;> simp, ?_, h2.1, h2.2, by cases c <;> simp⟩
    cases hq : s.pending with
    | nil => rfl
    | cons x xs => rw [hq] at h1; simp at h1
  · right
    right
    exact ⟨rfl, h3, rfl⟩
  · left
    cases c <;> simp

/-- With no finalize step pending, any snapshot taken at a
pre-terminal cancellation is covered by the emitted
`positionAndTransactions` count. -/
theorem snap_le_posTx (s : St) (hB : InvB s) (hpend : s.pending = []) :
    ∀ sc dc, s.cancelSnap = some (sc, dc) → sc ≤ countPosTx s.out := by
  intro sc dc hsnap
  have h2 := hB.snap sc dc hsnap
  have h3 := hB.bal
  rw [pending_nil_pendKeys s hB hpend] at h3
  simp at h3
  rw [hB.emis]
  omega

/-- The terminal-signal bookkeeping across `_finish`, in any state with
sound accounting whose delivered count is covered by the received count:
when the completion condition holds, the pending list is forced empty,
so the terminal goes through gate rule 2 or 4 (or is dropped by rule 3
if cancellation already finalized), and every component of `InvA` is
preserved. -/
theorem invA_finish (s : St) (hB : InvB s) (hA : InvA s)
    (hdr : s.delivered ≤ s.received) : InvA (finish s) := by
  unfold finish
  split_ifs with h1
  · obtain ⟨hra, hrp, hdone⟩ := h1
    have hpend : s.pending = [] := by
      by_contra hp
      exact pending_blocks_finish s hB hA.acc hdr hp hrp
    have hpk : pendKeys s.tasks = [] := pending_nil_pendKeys s hB hpend
    have hsb := snap_le_posTx s hB hpend
    by_cases hcd : s.cancelled = true
    · rw [push_rule3 { s with done := true } none hpend hcd]
      refine { acc := hA.acc, dProc := fun _ => hrp.symm, snapCg := hA.snapCg,
               termLe := hA.termLe, termFlag := ?_, afterOk := hA.afterOk,
               snapB4 := hA.snapB4 }
      constructor
      · intro _
        left
        rfl
      · intro _
        exact hA.termFlag.mpr (Or.inr hcd)
    · have hcd2 : s.cancelled = false := by simpa using hcd
      have hterm0 : countTerm s.out = 0 := by
        by_contra hcon
        have h2 := hA.termFlag.mp (by omega)
        rcases h2 with hx | hx
        · rw [hx] at hdone
          cases hdone
        · rw [hx] at hcd2
          cases hcd2
      have houtfam : ∀ u : St, u.out = s.out ++ [OutEv.term] → u.done = true →
          u.cancelSnap = s.cancelSnap →
          (countTerm u.out ≤ 1 ∧ (0 < countTerm u.out ↔ (u.done = true ∨ u.cancelled = true)) ∧
            (∀ e ∈ afterTerm u.out, allowedAfterTerm e = true) ∧
            (0 < countTerm u.out → ∀ sc dc, u.cancelSnap = some (sc, dc) →
              sc ≤ countPosTx (beforeTerm u.out))) := by
        intro u hu hud hus
        refine ⟨?_, ?_, ?_, ?_⟩
        · rw [hu, countTerm_append, hterm0]
          simp [countTerm, isTermEv]
        · constructor
          · intro _
            left
            exact hud
          · intro _
            rw [hu, countTerm_append, hterm0]
            simp [countTerm, List.countP_cons, isTermEv]
        · intro e he
          rw [hu, afterTerm_append_no_term _ hterm0, afterTerm_term_cons] at he
          cases he
        · intro _ sc dc hsnap
          rw [hus] at hsnap
          rw [hu, beforeTerm_append_no_term _ hterm0, beforeTerm_term_cons]
          simp only [List.append_nil]
          exact hsb sc dc hsnap
      by_cases hcg : s.cancelling = true
      · rw [push_rule2 { s with done := true } none hpend hcg hcd2]
        have hfam := houtfam
          { { s with done := true } with cancelled := true, out := s.out ++ [OutEv.term] }
          rfl rfl rfl
        exact { acc := hA.acc, dProc := fun _ => hrp.symm, snapCg := hA.snapCg,
                termLe := hfam.1, termFlag := hfam.2.1, afterOk := hfam.2.2.1,
                snapB4 := hfam.2.2.2 }
      · rw [push_rule4 { s with done := true } none hpend (by simpa using hcg) hcd2]
        have hfam := houtfam
          { s with done := true, out := s.out ++ [OutEv.term] } rfl rfl rfl
        exact { acc := hA.acc, dProc := fun _ => hrp.symm, snapCg := hA.snapCg,
                termLe := hfam.1, termFlag := hfam.2.1, afterOk := hfam.2.2.1,
                snapB4 := hfam.2.2.2 }
  · exact hA

theorem finish_noop_of_notAll (u : St) (h : u.receivedAll = false) : finish u = u := by
  unfold finish
  rw [if_neg]
  intro hcon
  rw [h] at hcon
  exact absurd hcon.1 (by simp)

/-- A well-formed progress signal (the source has not yet flagged
`allSignaturesFound` and no cancellation was requested) forwards the
signal and cannot complete the stream. -/
theorem invA_sig (s : St) (n : Nat) (hB : InvB s) (hA : InvA s)
    (hcg : s.cancelling = false) (hra : s.receivedAll = false) :
    InvA (parseSignalSigCount s n) := by
  have hcd : s.cancelled = false := by
    by_contra h
    rw [hB.cImp (by simpa using h)] at hcg
    cases hcg
  have hdone : s.done = false := by
    by_contra h
    rw [hB.dImp (by simpa using h)] at hra
    cases hra
  have hterm0 : countTerm s.out = 0 := by
    by_contra h
    rcases hA.termFlag.mp (by omega) with hx | hx
    · rw [hx] at hdone
      cases hdone
    · rw [hx] at hcd
      cases hcd
  unfold parseSignalSigCount
  rw [push_no_cancel { s with received := n } (some (OutEv.sigCount n)) hcg hcd]
  rw [show emitOut { s with received := n } (some (OutEv.sigCount n)) =
      { s with received := n, out := s.out ++ [OutEv.sigCount n] } from rfl]
  rw [finish_noop_of_notAll { s with received := n, out := s.out ++ [OutEv.sigCount n] }
    hra]
  have hterm0b : countTerm (s.out ++ [OutEv.sigCount n]) = 0 := by
    rw [countTerm_append, hterm0]
    simp [countTerm, isTermEv]
  refine { acc := hA.acc, dProc := ?_, snapCg := hA.snapCg, termLe := ?_,
           termFlag := ?_, afterOk := ?_, snapB4 := ?_ }
  · intro hd
    rw [hdone] at hd
    cases hd
  · show countTerm (s.out ++ [OutEv.sigCount n]) ≤ 1
    omega
  · show 0 < countTerm (s.out ++ [OutEv.sigCount n]) ↔ _
    rw [hterm0b]
    simp [hdone, hcd]
  · intro e he
    rw [show afterTerm (s.out ++ [OutEv.sigCount n]) = [] from
      afterTerm_eq_nil hterm0b] at he
    cases he
  · intro hcon
    rw [hterm0b] at hcon
    cases hcon

/-- A well-formed `allSignaturesFound` signal: forwards the signal, then
the completion check may fire. -/
theorem invA_allF (s : St) (hB : InvB s) (hA : InvA s)
    (hcg : s.cancelling = false) (hra : s.receivedAll = false)
    (hdr : s.delivered ≤ s.received) :
    InvA (parseSignalAllFound s) := by
  have hcd : s.cancelled = false := by
    by_contra h
    rw [hB.cImp (by simpa using h)] at hcg
    cases hcg
  have hdone : s.done = false := by
    by_contra h
    rw [hB.dImp (by simpa using h)] at hra
    cases hra
  have hterm0 : countTerm s.out = 0 := by
    by_contra h
    rcases hA.termFlag.mp (by omega) with hx | hx
    · rw [hx] at hdone
      cases hdone
    · rw [hx] at hcd
      cases hcd
  have hterm0b : countTerm (s.out ++ [OutEv.allFound]) = 0 := by
    rw [countTerm_append, hterm0]
    simp [countTerm, isTermEv]
  unfold parseSignalAllFound
  rw [push_no_cancel { s with receivedAll := true } (some OutEv.allFound) hcg hcd]
  rw [show emitOut { s with receivedAll := true } (some OutEv.allFound) =
      { s with receivedAll := true, out := s.out ++ [OutEv.allFound] } from rfl]
  apply invA_finish
  · exact { hB with
      emis := by
        show countPosTx (s.out ++ [OutEv.allFound]) = s.finDone
        rw [countPosTx_append, hB.emis]
        simp [countPosTx, isPosTxEv]
      aug := by
        intro txs pos hm hcl
        rcases List.mem_append.mp hm with hm1 | hm2
        · exact hB.aug txs pos hm1 hcl
        · simp at hm2
      noUop := by
        intro nn hm
        rcases List.mem_append.mp hm with hm1 | hm2
        · exact hB.noUop nn hm1
        · simp at hm2
      dImp := fun _ => rfl }
  · refine { acc := hA.acc, dProc := ?_, snapCg := hA.snapCg, termLe := ?_,
             termFlag := ?_, afterOk := ?_, snapB4 := ?_ }
    · intro hd
      rw [hdone] at hd
      cases hd
    · show countTerm (s.out ++ [OutEv.allFound]) ≤ 1
      omega
    · show 0 < countTerm (s.out ++ [OutEv.allFound]) ↔ _
      rw [hterm0b]
      simp [hdone, hcd]
    · intro e he
      rw [show afterTerm (s.out ++ [OutEv.allFound]) = [] from
        afterTerm_eq_nil hterm0b] at he
      cases he
    · intro hcon
      rw [hterm0b] at hcon
      cases hcon
  · exact hdr

/-- Raw-batch arrival keeps every well-formedness invariant: the enqueue
and immediate dequeue balance the accounting and emit nothing. -/
theorem invA_batch (s : St) (raws : List Nat) (hB : InvB s) (hA : InvA s)
    (hcg : s.cancelling = false) : InvA (batchStep s raws) := by
  have hcd : s.cancelled = false := by
    by_contra h
    rw [hB.cImp (by simpa using h)] at hcg
    cases hcg
  unfold batchStep processBatchStart
  rw [if_pos ⟨hcg, hcd⟩]
  cases hq : s.queue ++ [raws] with
  | nil => exact absurd hq (by simp)
  | cons b rest =>
    have hqs : qSum (s.queue ++ [raws]) = b.length + qSum rest := by
      rw [hq]
      simp [qSum]
    refine { acc := ?_, dProc := hA.dProc, snapCg := hA.snapCg, termLe := hA.termLe,
             termFlag := hA.termFlag, afterOk := hA.afterOk, snapB4 := hA.snapB4 }
    show s.processed + icSum (s.tasks ++ [Task.transform b]) + qSum rest + s.lost =
      s.delivered + raws.length
    rw [icSum_append]
    have h1 := hA.acc
    have h2 : qSum (s.queue ++ [raws]) = qSum s.queue + raws.length := by
      simp [qSum]
    have h4 : icSum [Task.transform b] = b.length := by simp [icSum, icOf]
    omega

/-- The source `end` handler: flag completion of retrieval and arm the
drain loop. -/
theorem invA_srcEnd (s : St) (hA : InvA s) : InvA (srcEndStep s) := by
  unfold srcEndStep
  split_ifs with h1
  · exact { acc := hA.acc, dProc := hA.dProc, snapCg := hA.snapCg, termLe := hA.termLe,
            termFlag := hA.termFlag, afterOk := hA.afterOk, snapB4 := hA.snapB4 }
  · refine { acc := ?_, dProc := hA.dProc, snapCg := hA.snapCg, termLe := hA.termLe,
             termFlag := hA.termFlag, afterOk := hA.afterOk, snapB4 := hA.snapB4 }
    show s.processed + icSum (s.tasks ++ [Task.drainLoop]) + qSum s.queue + s.lost =
      s.delivered
    rw [icSum_append]
    have h4 : icSum [Task.drainLoop] = 0 := by simp [icSum, icOf]
    have := hA.acc
    omega

/-- A source error is emitted directly (bypassing the gate). -/
theorem invA_srcError (s : St) (hA : InvA s) :
    InvA { s with out := s.out ++ [OutEv.errEv] } := by
  have hterm : countTerm (s.out ++ [OutEv.errEv]) = countTerm s.out := by
    rw [countTerm_append]
    simp [countTerm, isTermEv]
  refine { acc := hA.acc, dProc := hA.dProc, snapCg := hA.snapCg, termLe := ?_,
           termFlag := ?_, afterOk := ?_, snapB4 := ?_ }
  · show countTerm (s.out ++ [OutEv.errEv]) ≤ 1
    rw [hterm]
    exact hA.termLe
  · show 0 < countTerm (s.out ++ [OutEv.errEv]) ↔ _
    rw [hterm]
    exact hA.termFlag
  · intro e he
    by_cases h0 : countTerm s.out = 0
    · rw [show afterTerm (s.out ++ [OutEv.errEv]) = [] from by
        apply afterTerm_eq_nil
        rw [hterm, h0]] at he
      cases he
    · rw [afterTerm_append_term _ (by omega)] at he
      rcases List.mem_append.mp he with h1 | h2
      · exact hA.afterOk e h1
      · simp at h2
        rw [h2]
        rfl
  · intro hcon sc dc hsnap
    rw [hterm] at hcon
    rw [beforeTerm_append_term _ hcon]
    exact hA.snapB4 hcon sc dc hsnap

/-- A `cancel()` call after initialization records the request. -/
theorem invA_cancel (s : St) (hA : InvA s) : InvA (cancelStep s) := by
  unfold cancelStep cancelMethod
  by_cases hi : s.initDone = true
  · rw [if_pos hi]
    show InvA { s with cancelling := true,
                       cancelSnap := if s.cancelSnap = none ∧ countTerm s.out = 0 then
                           some (s.finStarts, s.finDone) else s.cancelSnap }
    refine { acc := hA.acc, dProc := hA.dProc, snapCg := fun _ => rfl,
             termLe := hA.termLe, termFlag := hA.termFlag, afterOk := hA.afterOk,
             snapB4 := ?_ }
    intro hcon sc dc hsnap
    show sc ≤ countPosTx (beforeTerm s.out)
    have hsnap2 : (if s.cancelSnap = none ∧ countTerm s.out = 0 then
        some (s.finStarts, s.finDone) else s.cancelSnap) = some (sc, dc) := hsnap
    split_ifs at hsnap2 with hcs
    · have hcon2 : 0 < countTerm s.out := hcon
      rw [hcs.2] at hcon2
      cases hcon2
    · have hcon2 : 0 < countTerm s.out := hcon
      exact hA.snapB4 hcon2 sc dc hsnap2
  · rw [if_neg hi]
    exact hA

theorem icSum_spawnFins (env : Env) (bid : Nat) (log : List Tx) (output : List Tx) :
    icSum (spawnFins env bid log output) = 0 := by
  unfold icSum
  rw [List.sum_eq_zero]
  intro x hx
  rcases List.mem_map.mp hx with ⟨t, ht, hxt⟩
  obtain ⟨k, hk, _⟩ := spawnFins_shape env bid log output t ht
  rw [← hxt, hk]
  rfl

/-- A resumed open-position finalize step emits its record (gate rule 1:
its own key is still pending) and completes; all well-formedness
invariants carry. -/
theorem invA_runFinOpen (s : St) (bid key : Nat) (txs : List Tx) (pos : Pos)
    (hB : InvB s) (hA : InvA s)
    (hmem : Task.finOpen bid key txs pos ∈ s.tasks) :
    InvA (updateOpenResume
      { s with tasks := s.tasks.erase (Task.finOpen bid key txs pos) } key txs pos) := by
  have hperm := pendKeys_erase_perm hmem
  have hcons := pendKeys_cons (Task.finOpen bid key txs pos)
    (s.tasks.erase (Task.finOpen bid key txs pos))
  have hpk : pendKeys [Task.finOpen bid key txs pos] = [key] := rfl
  have hkeymem : key ∈ pendKeys s.tasks := by
    have h2 : key ∈ pendKeys (Task.finOpen bid key txs pos ::
        s.tasks.erase (Task.finOpen bid key txs pos)) := by
      rw [hcons, hpk]
      simp
    exact hperm.symm.subset h2
  have hkeycnt : 0 < s.pending.count key := by
    rw [hB.pend key]
    exact List.count_pos_iff.mpr hkeymem
  have hkeypend : key ∈ s.pending := List.count_pos_iff.mp hkeycnt
  have hplen : 0 < s.pending.length := List.length_pos.mpr
    (fun hx => by rw [hx] at hkeypend; cases hkeypend)
  have hrule : push { s with tasks := s.tasks.erase (Task.finOpen bid key txs pos) }
      (some (OutEv.posTx txs { pos with augmented := true })) =
      emitOut { s with tasks := s.tasks.erase (Task.finOpen bid key txs pos) }
        (some (OutEv.posTx txs { pos with augmented := true })) :=
    push_rule1 _ _ hplen
  have hres : updateOpenResume
      { s with tasks := s.tasks.erase (Task.finOpen bid key txs pos) } key txs pos =
      { s with tasks := s.tasks.erase (Task.finOpen bid key txs pos)
               out := s.out ++ [OutEv.posTx txs { pos with augmented := true }]
               pending := s.pending.erase key
               finDone := s.finDone + 1 } := by
    unfold updateOpenResume
    rw [hrule]
    rfl
  rw [hres]
  have hicsum : icSum s.tasks = icSum (s.tasks.erase (Task.finOpen bid key txs pos)) := by
    have := icSum_perm (List.perm_cons_erase hmem)
    simpa [icSum, icOf] using this
  have hterm : countTerm (s.out ++ [OutEv.posTx txs { pos with augmented := true }]) =
      countTerm s.out := by
    rw [countTerm_append]
    simp [countTerm, isTermEv]
  refine { acc := ?_, dProc := hA.dProc, snapCg := hA.snapCg, termLe := ?_,
           termFlag := ?_, afterOk := ?_, snapB4 := ?_ }
  · show s.processed + icSum (s.tasks.erase (Task.finOpen bid key txs pos)) +
      qSum s.queue + s.lost = s.delivered
    have := hA.acc
    omega
  · show countTerm (s.out ++ [OutEv.posTx txs { pos with augmented := true }]) ≤ 1
    rw [hterm]
    exact hA.termLe
  · show 0 < countTerm (s.out ++ [OutEv.posTx txs { pos with augmented := true }]) ↔ _
    rw [hterm]
    exact hA.termFlag
  · intro e he
    by_cases h0 : countTerm s.out = 0
    · rw [show afterTerm (s.out ++ [OutEv.posTx txs { pos with augmented := true }]) = []
        from by
          apply afterTerm_eq_nil
          rw [hterm, h0]] at he
      cases he
    · rw [afterTerm_append_term _ (by omega)] at he
      rcases List.mem_append.mp he with h1 | h2
      · exact hA.afterOk e h1
      · simp at h2
        rw [h2]
        rfl
  · intro hcon sc dc hsnap
    rw [hterm] at hcon
    rw [beforeTerm_append_term _ hcon]
    exact hA.snapB4 hcon sc dc hsnap

/-- A resumed `afterJoin` tail: the processed count absorbs the batch's
input count, then the completion check runs. -/
theorem invA_runAfterJoin (s : St) (bid ic : Nat) (hB : InvB s) (hA : InvA s)
    (hdr : s.delivered ≤ s.received)
    (hmem : Task.afterJoin bid ic ∈ s.tasks) (hrun : noFinOpenBid s.tasks bid = true) :
    InvA (afterJoinResume { s with tasks := s.tasks.erase (Task.afterJoin bid ic) } ic) := by
  have hicsum : icSum s.tasks = ic + icSum (s.tasks.erase (Task.afterJoin bid ic)) := by
    have := icSum_perm (List.perm_cons_erase hmem)
    simpa [icSum, icOf] using this
  have hB0 := invB_erase_join s bid ic hB hmem hrun
  have hB1 : InvB { s with tasks := s.tasks.erase (Task.afterJoin bid ic)
                           processed := s.processed + ic } :=
    ⟨hB0.bal, hB0.emis, hB0.openAcc, hB0.pend, hB0.join, hB0.aug, hB0.noUop, hB0.cImp,
      hB0.dImp, hB0.snap⟩
  unfold afterJoinResume
  apply invA_finish _ hB1 _ hdr
  refine { acc := ?_, dProc := ?_, snapCg := hA.snapCg, termLe := hA.termLe,
           termFlag := hA.termFlag, afterOk := hA.afterOk, snapB4 := hA.snapB4 }
  · show s.processed + ic + icSum (s.tasks.erase (Task.afterJoin bid ic)) +
      qSum s.queue + s.lost = s.delivered
    have := hA.acc
    omega
  · intro hd
    show s.processed + ic = s.received
    have h1 := hA.dProc hd
    have h2 := hA.acc
    omega

/-- The drain loop preserves the well-formedness invariants on any state
that satisfies them. -/
theorem invA_drainResume (s : St) (hB : InvB s) (hA : InvA s)
    (hdr : s.delivered ≤ s.received) : InvA (drainResume s) := by
  unfold drainResume
  split_ifs with h1 h2
  · exact hA
  · refine { acc := ?_, dProc := hA.dProc, snapCg := hA.snapCg, termLe := hA.termLe,
             termFlag := hA.termFlag, afterOk := hA.afterOk, snapB4 := hA.snapB4 }
    show s.processed + icSum (s.tasks ++ [Task.drainLoop]) + qSum s.queue + s.lost =
      s.delivered
    rw [icSum_append]
    have h4 : icSum [Task.drainLoop] = 0 := by simp [icSum, icOf]
    have := hA.acc
    omega
  · cases hq : s.queue with
    | nil =>
      show InvA { finish s with tasks := (finish s).tasks ++ [Task.drainLoop] }
      have hfin := invA_finish s hB hA hdr
      refine { acc := ?_, dProc := hfin.dProc, snapCg := hfin.snapCg,
               termLe := hfin.termLe, termFlag := hfin.termFlag,
               afterOk := hfin.afterOk, snapB4 := hfin.snapB4 }
      show (finish s).processed + icSum ((finish s).tasks ++ [Task.drainLoop]) +
        qSum (finish s).queue + (finish s).lost = (finish s).delivered
      rw [icSum_append]
      have h4 : icSum [Task.drainLoop] = 0 := by simp [icSum, icOf]
      have := hfin.acc
      omega
    | cons b rest =>
      have hqs : qSum s.queue = b.length + qSum rest := by
        rw [hq]
        simp [qSum]
      refine { acc := ?_, dProc := hA.dProc, snapCg := hA.snapCg, termLe := hA.termLe,
               termFlag := hA.termFlag, afterOk := hA.afterOk, snapB4 := hA.snapB4 }
      show s.processed + icSum (s.tasks ++ [Task.transform b, Task.drainLoop]) +
        qSum rest + s.lost = s.delivered
      rw [show s.tasks ++ [Task.transform b, Task.drainLoop] =
        (s.tasks ++ [Task.transform b]) ++ [Task.drainLoop] by simp]
      rw [icSum_append, icSum_append]
      have h4 : icSum [Task.drainLoop] = 0 := by simp [icSum, icOf]
      have h5 : icSum [Task.transform b] = b.length := by simp [icSum, icOf]
      have := hA.acc
      omega

/-- A resumed drain-loop iteration from a task-queue state. -/
theorem invA_runDrain (s : St) (hB : InvB s) (hA : InvA s)
    (hdr : s.delivered ≤ s.received) (hmem : Task.drainLoop ∈ s.tasks) :
    InvA (drainResume { s with tasks := s.tasks.erase Task.drainLoop }) := by
  have hicsum : icSum s.tasks = icSum (s.tasks.erase Task.drainLoop) := by
    have := icSum_perm (List.perm_cons_erase hmem)
    simpa [icSum, icOf] using this
  have hB0 := invB_erase_plain s Task.drainLoop hB hmem rfl
    (by intro bid ic hx; cases hx)
  have hA0 : InvA { s with tasks := s.tasks.erase Task.drainLoop } := by
    refine { acc := ?_, dProc := hA.dProc, snapCg := hA.snapCg, termLe := hA.termLe,
             termFlag := hA.termFlag, afterOk := hA.afterOk, snapB4 := hA.snapB4 }
    show s.processed + icSum (s.tasks.erase Task.drainLoop) + qSum s.queue + s.lost =
      s.delivered
    have := hA.acc
    omega
  exact invA_drainResume _ hB0 hA0 hdr

/-- Resolution of the classifier on a non-empty batch with non-empty
output: the count event and the finalize emissions respect the
terminal-shape invariants, and the accounting moves the batch's input
count into the scheduled `afterJoin` tail. -/
theorem invA_transformCore (env : Env) (s : St) (raws : List Nat)
    (hB : InvB s)
    (hacc : s.processed + icSum s.tasks + raws.length + qSum s.queue + s.lost = s.delivered)
    (hdone : s.done = false)
    (htermLe : countTerm s.out ≤ 1)
    (htermFlag : 0 < countTerm s.out ↔ (s.done = true ∨ s.cancelled = true))
    (hafter : ∀ e ∈ afterTerm s.out, allowedAfterTerm e = true)
    (hsnapB4 : 0 < countTerm s.out → ∀ sc dc, s.cancelSnap = some (sc, dc) →
      sc ≤ countPosTx (beforeTerm s.out))
    (hsnapCg : s.cancelSnap ≠ none → s.cancelling = true)
    (hlen : 0 < raws.length) :
    InvA (transformCore env s raws) := by
  set output := env.classify raws with hodef
  set s2 : St := { s with log := s.log ++ output } with hs2
  set u := push s2 (some (OutEv.txCount (s.log ++ output).length)) with hu
  obtain ⟨w, hwout, huinit, hurecAll, hurec, huproc, hulog, hudone, hucg, hupend,
    huqueue, hutasks, hubid, hudel, hudr, hulost, hufs, hufd, husnap⟩ :=
    push_frame s2 (some (OutEv.txCount (s.log ++ output).length))
  have hcore : transformCore env s raws =
      { u with pending := spawnPend env u.log u.pending output
               tasks := (u.tasks ++ spawnFins env s.nextBid u.log output) ++
                 [Task.afterJoin s.nextBid raws.length]
               out := u.out ++ spawnEvs env u.log output
               finStarts := u.finStarts + countOpen output
               finDone := u.finDone + countPosTx (spawnEvs env u.log output)
               nextBid := u.nextBid + 1 } := by
    rw [show transformCore env s raws =
        { spawnFinalizes env s.nextBid u output with
          tasks := (spawnFinalizes env s.nextBid u output).tasks ++
            [Task.afterJoin s.nextBid raws.length]
          nextBid := (spawnFinalizes env s.nextBid u output).nextBid + 1 } from rfl]
    rw [spawn_eq env s.nextBid output u]
  rw [hcore]
  have hulog2 : u.log = s.log ++ output := by rw [hulog]
  have hutasks2 : u.tasks = s.tasks := by rw [hutasks]
  rw [hulog2, hutasks2]
  have hup : u.processed = s.processed := huproc
  have huq : u.queue = s.queue := huqueue
  have hul : u.lost = s.lost := hulost
  have hud : u.delivered = s.delivered := hudel
  have hudn : u.done = s.done := hudone
  have hucg2 : u.cancelling = s.cancelling := hucg
  have husn : u.cancelSnap = s.cancelSnap := husnap
  have hcte : countTerm (spawnEvs env (s.log ++ output) output) = 0 :=
    countTerm_spawnEvs env (s.log ++ output) output
  have hevok : ∀ e ∈ spawnEvs env (s.log ++ output) output,
      allowedAfterTerm e = true := by
    intro e he
    obtain ⟨k, hk, _⟩ := spawnEvs_shape env (s.log ++ output) output e he
    rw [hk]
    rfl
  have hrest : countTerm (u.out ++ spawnEvs env (s.log ++ output) output) ≤ 1 ∧
      (0 < countTerm (u.out ++ spawnEvs env (s.log ++ output) output) ↔
        (u.done = true ∨ u.cancelled = true)) ∧
      (∀ e ∈ afterTerm (u.out ++ spawnEvs env (s.log ++ output) output),
        allowedAfterTerm e = true) ∧
      (0 < countTerm (u.out ++ spawnEvs env (s.log ++ output) output) →
        ∀ sc dc, u.cancelSnap = some (sc, dc) →
          sc ≤ countPosTx (beforeTerm (u.out ++ spawnEvs env (s.log ++ output) output))) := by
    rw [hudn, husn]
    rcases push_out_cases s2 (some (OutEv.txCount (s.log ++ output).length)) with
      ⟨ho, hcd⟩ | ⟨ho, hp, hcg3, hcdpre, hcd⟩ | ⟨ho, hcdpre, hcd⟩
    · have ho2 : u.out = s.out ++ [OutEv.txCount (s.log ++ output).length] := ho
      have hcd2 : u.cancelled = s.cancelled := hcd
      have h0tx : countTerm [OutEv.txCount (s.log ++ output).length] = 0 := rfl
      have hct : countTerm (u.out ++ spawnEvs env (s.log ++ output) output) =
          countTerm s.out := by
        rw [countTerm_append, hcte, ho2, countTerm_append, h0tx]
        omega
      refine ⟨?_, ?_, ?_, ?_⟩
      · rw [hct]
        exact htermLe
      · rw [hct, hcd2]
        exact htermFlag
      · intro e he
        by_cases h0 : countTerm s.out = 0
        · rw [afterTerm_eq_nil (by rw [hct]; exact h0)] at he
          cases he
        · have hpos : 0 < countTerm s.out := Nat.pos_of_ne_zero h0
          have hposu : 0 < countTerm u.out := by
            rw [ho2, countTerm_append, h0tx]
            omega
          rw [afterTerm_append_term _ hposu, ho2, afterTerm_append_term _ hpos] at he
          rcases List.mem_append.mp he with h1 | h2
          · rcases List.mem_append.mp h1 with h3 | h4
            · exact hafter e h3
            · simp at h4
              rw [h4]
              rfl
          · exact hevok e h2
      · intro hpos0 sc dc hsc
        rw [hct] at hpos0
        have hposu : 0 < countTerm u.out := by
          rw [ho2, countTerm_append, h0tx]
          omega
        rw [beforeTerm_append_term _ hposu, ho2, beforeTerm_append_term _ hpos0]
        exact hsnapB4 hpos0 sc dc hsc
    · have ho2 : u.out = s.out ++ [OutEv.term] := ho
      have hp2 : s.pending = [] := hp
      have hcd2 : u.cancelled = true := hcd
      have h0 : countTerm s.out = 0 := by
        by_contra hx
        rcases htermFlag.mp (Nat.pos_of_ne_zero hx) with h | h
        · rw [hdone] at h
          simp at h
        · rw [hcdpre] at h
          simp at h
      have hct : countTerm (u.out ++ spawnEvs env (s.log ++ output) output) = 1 := by
        rw [countTerm_append, hcte, ho2, countTerm_append, h0]
        rfl
      refine ⟨?_, ?_, ?_, ?_⟩
      · rw [hct]
      · rw [hct]
        constructor
        · intro _
          right
          exact hcd2
        · intro _
          exact Nat.one_pos
      · intro e he
        rw [ho2, List.append_assoc, afterTerm_append_no_term _ h0,
          show ([OutEv.term] ++ spawnEvs env (s.log ++ output) output) =
            OutEv.term :: spawnEvs env (s.log ++ output) output from rfl,
          afterTerm_term_cons] at he
        exact hevok e he
      · intro _ sc dc hsc
        rw [ho2, List.append_assoc, beforeTerm_append_no_term _ h0,
          show ([OutEv.term] ++ spawnEvs env (s.log ++ output) output) =
            OutEv.term :: spawnEvs env (s.log ++ output) output from rfl,
          beforeTerm_term_cons, List.append_nil]
        exact snap_le_posTx s hB hp2 sc dc hsc
    · have ho2 : u.out = s.out := ho
      have hcd2 : u.cancelled = s.cancelled := hcd
      have hpos : 0 < countTerm s.out := htermFlag.mpr (Or.inr hcdpre)
      have hct : countTerm (u.out ++ spawnEvs env (s.log ++ output) output) =
          countTerm s.out := by
        rw [countTerm_append, hcte, ho2]
        omega
      refine ⟨?_, ?_, ?_, ?_⟩
      · rw [hct]
        exact htermLe
      · rw [hct, hcd2]
        exact htermFlag
      · intro e he
        rw [ho2, afterTerm_append_term _ hpos] at he
        rcases List.mem_append.mp he with h1 | h2
        · exact hafter e h1
        · exact hevok e h2
      · intro hpos0 sc dc hsc
        rw [ho2, beforeTerm_append_term _ hpos]
        exact hsnapB4 hpos sc dc hsc
  refine { acc := ?_, dProc := ?_, snapCg := ?_, termLe := hrest.1,
           termFlag := hrest.2.1, afterOk := hrest.2.2.1, snapB4 := ?_ }
  · show u.processed + icSum ((s.tasks ++ spawnFins env s.nextBid (s.log ++ output) output)
      ++ [Task.afterJoin s.nextBid raws.length]) + qSum u.queue + u.lost = u.delivered
    rw [hup, huq, hul, hud, icSum_append, icSum_append, icSum_spawnFins]
    have h4 : icSum [Task.afterJoin s.nextBid raws.length] = raws.length := by
      simp [icSum, icOf]
    omega
  · intro hd
    have hd2 : u.done = true := hd
    rw [hudn, hdone] at hd2
    simp at hd2
  · intro hne
    have hne2 : s.cancelSnap ≠ none := by
      intro hx
      apply hne
      show u.cancelSnap = none
      rw [husn, hx]
    show u.cancelling = true
    rw [hucg2]
    exact hsnapCg hne2
  · intro hpos0 sc dc hsc
    exact hrest.2.2.2 hpos0 sc dc hsc

/-- A resumed classifier transform preserves the well-formedness
invariants from any state still holding the batch's in-flight count. -/
theorem invA_runTransform (env : Env) (s : St) (raws : List Nat)
    (hB : InvB s) (hA : InvA s) (hdr : s.delivered ≤ s.received)
    (hmem : Task.transform raws ∈ s.tasks) :
    InvA (transformResume env { s with tasks := s.tasks.erase (Task.transform raws) }
      raws) := by
  have hicsum : icSum s.tasks =
      raws.length + icSum (s.tasks.erase (Task.transform raws)) := by
    have := icSum_perm (List.perm_cons_erase hmem)
    simpa [icSum, icOf] using this
  have hB0 : InvB { s with tasks := s.tasks.erase (Task.transform raws) } :=
    invB_erase_plain s _ hB hmem rfl (by intro bid ic hx; cases hx)
  unfold transformResume
  split_ifs with hlen hout
  · have hdone : s.done = false := by
      by_contra hcon
      have hcon2 : s.done = true := by
        cases hdn : s.done with
        | false => exact absurd hdn hcon
        | true => rfl
      have h1 := hA.dProc hcon2
      have h2 := hA.acc
      have h3 : raws.length ≤ icSum s.tasks := by omega
      omega
    exact invA_transformCore env { s with tasks := s.tasks.erase (Task.transform raws) }
      raws hB0
      (by show s.processed + icSum (s.tasks.erase (Task.transform raws)) + raws.length +
            qSum s.queue + s.lost = s.delivered
          have := hA.acc
          omega)
      hdone hA.termLe
      (by show 0 < countTerm s.out ↔ (s.done = true ∨ s.cancelled = true)
          exact hA.termFlag)
      hA.afterOk hA.snapB4 hA.snapCg hlen
  · refine { acc := ?_, dProc := hA.dProc, snapCg := hA.snapCg, termLe := hA.termLe,
             termFlag := hA.termFlag, afterOk := hA.afterOk, snapB4 := hA.snapB4 }
    show s.processed + icSum (s.tasks.erase (Task.transform raws) ++
      [Task.afterJoin s.nextBid raws.length]) + qSum s.queue + s.lost = s.delivered
    rw [icSum_append]
    have h4 : icSum [Task.afterJoin s.nextBid raws.length] = raws.length := by
      simp [icSum, icOf]
    have := hA.acc
    omega
  · have hlen0 : raws.length = 0 := by omega
    apply invA_finish _ hB0 _ hdr
    refine { acc := ?_, dProc := hA.dProc, snapCg := hA.snapCg, termLe := hA.termLe,
             termFlag := hA.termFlag, afterOk := hA.afterOk, snapB4 := hA.snapB4 }
    show s.processed + icSum (s.tasks.erase (Task.transform raws)) + qSum s.queue +
      s.lost = s.delivered
    have := hA.acc
    omega

theorem push_frame5 (s : St) (c : Option OutEv) : frame5 (push s c) s := by
  obtain ⟨w, hwout, huinit, hurecAll, hurec, huproc, hulog, hudone, hucg, hupend,
    huqueue, hutasks, hubid, hudel, hudr, hulost, hufs, hufd, husnap⟩ := push_frame s c
  exact ⟨hurec, hudel, hucg, hurecAll, huinit⟩

theorem finish_frame5 (s : St) : frame5 (finish s) s := by
  unfold finish
  split_ifs
  · have h1 := push_frame5 { s with done := true } none
    exact ⟨h1.1, h1.2.1, h1.2.2.1, h1.2.2.2.1, h1.2.2.2.2⟩
  · exact ⟨rfl, rfl, rfl, rfl, rfl⟩

theorem spawnFinalizes_frame5 (env : Env) (bid : Nat) (s : St) (output : List Tx) :
    frame5 (spawnFinalizes env bid s output) s := by
  rw [spawn_eq]
  exact ⟨rfl, rfl, rfl, rfl, rfl⟩

theorem transformCore_frame5 (env : Env) (s : St) (raws : List Nat) :
    frame5 (transformCore env s raws) s := by
  have h1 := push_frame5 { s with log := s.log ++ env.classify raws }
    (some (OutEv.txCount (s.log ++ env.classify raws).length))
  have h2 := spawnFinalizes_frame5 env s.nextBid
    (push { s with log := s.log ++ env.classify raws }
      (some (OutEv.txCount (s.log ++ env.classify raws).length)))
    (env.classify raws)
  exact ⟨h2.1.trans h1.1, h2.2.1.trans h1.2.1, h2.2.2.1.trans h1.2.2.1,
    h2.2.2.2.1.trans h1.2.2.2.1, h2.2.2.2.2.trans h1.2.2.2.2⟩

theorem transformResume_frame5 (env : Env) (s : St) (raws : List Nat) :
    frame5 (transformResume env s raws) s := by
  unfold transformResume
  split_ifs
  · exact transformCore_frame5 env s raws
  · exact ⟨rfl, rfl, rfl, rfl, rfl⟩
  · exact finish_frame5 s

theorem updateOpenResume_frame5 (s : St) (key : Nat) (txs : List Tx) (pos : Pos) :
    frame5 (updateOpenResume s key txs pos) s := by
  have h1 := push_frame5 s (some (OutEv.posTx txs { pos with augmented := true }))
  exact ⟨h1.1, h1.2.1, h1.2.2.1, h1.2.2.2.1, h1.2.2.2.2⟩

theorem afterJoinResume_frame5 (s : St) (ic : Nat) :
    frame5 (afterJoinResume s ic) s := by
  have h1 := finish_frame5 { s with processed := s.processed + ic }
  exact ⟨h1.1, h1.2.1, h1.2.2.1, h1.2.2.2.1, h1.2.2.2.2⟩

theorem drainResume_frame5 (s : St) : frame5 (drainResume s) s := by
  unfold drainResume
  split_ifs
  · exact ⟨rfl, rfl, rfl, rfl, rfl⟩
  · exact ⟨rfl, rfl, rfl, rfl, rfl⟩
  · cases hq : s.queue with
    | nil =>
      have h1 := finish_frame5 s
      exact ⟨h1.1, h1.2.1, h1.2.2.1, h1.2.2.2.1, h1.2.2.2.2⟩
    | cons b rest => exact ⟨rfl, rfl, rfl, rfl, rfl⟩

theorem runTaskStep_frame5 (env : Env) (s : St) (t : Task) :
    frame5 (runTaskStep env s t) s := by
  unfold runTaskStep
  split_ifs with hmem
  · cases t with
    | transform raws =>
      have h1 := transformResume_frame5 env
        { s with tasks := s.tasks.erase (Task.transform raws) } raws
      exact ⟨h1.1, h1.2.1, h1.2.2.1, h1.2.2.2.1, h1.2.2.2.2⟩
    | finOpen bid key txs pos =>
      have h1 := updateOpenResume_frame5
        { s with tasks := s.tasks.erase (Task.finOpen bid key txs pos) } key txs pos
      exact ⟨h1.1, h1.2.1, h1.2.2.1, h1.2.2.2.1, h1.2.2.2.2⟩
    | afterJoin bid ic =>
      show frame5 (if noFinOpenBid s.tasks bid then
        afterJoinResume { s with tasks := s.tasks.erase (Task.afterJoin bid ic) } ic
        else s) s
      split_ifs with hnf
      · have h1 := afterJoinResume_frame5
          { s with tasks := s.tasks.erase (Task.afterJoin bid ic) } ic
        exact ⟨h1.1, h1.2.1, h1.2.2.1, h1.2.2.2.1, h1.2.2.2.2⟩
      · exact ⟨rfl, rfl, rfl, rfl, rfl⟩
    | drainLoop =>
      have h1 := drainResume_frame5 { s with tasks := s.tasks.erase Task.drainLoop }
      exact ⟨h1.1, h1.2.1, h1.2.2.1, h1.2.2.2.1, h1.2.2.2.2⟩
  · exact ⟨rfl, rfl, rfl, rfl, rfl⟩

theorem processBatchStart_frame5 (s : St) : frame5 (processBatchStart s) s := by
  unfold processBatchStart
  split_ifs
  · cases hq : s.queue with
    | nil => exact finish_frame5 s
    | cons b rest => exact ⟨rfl, rfl, rfl, rfl, rfl⟩
  · exact ⟨rfl, rfl, rfl, rfl, rfl⟩

/-- One step of the transition system under an admissible environment
event preserves the well-formedness invariants and the correspondence
with the source-interface accumulator. -/
theorem invA_step (env : Env) (s : St) (e : Ev) (a a2 : WfAcc)
    (hB : InvB s) (hA : InvA s) (hR : RAcc a s)
    (hw : wfStep a e = some a2) :
    InvA (step env s e) ∧ RAcc a2 (step env s e) := by
  have hdr : s.delivered ≤ s.received := by
    rw [hR.delEq, hR.recEq]
    exact hR.delLe
  cases e with
  | initEv =>
    have ha2 : { a with inited := true } = a2 := Option.some.inj hw
    subst ha2
    constructor
    · exact { acc := hA.acc, dProc := hA.dProc, snapCg := hA.snapCg, termLe := hA.termLe,
              termFlag := hA.termFlag, afterOk := hA.afterOk, snapB4 := hA.snapB4 }
    · exact { recEq := hR.recEq, delEq := hR.delEq, delLe := hR.delLe, cgEq := hR.cgEq,
              raEq := hR.raEq, idEq := rfl }
  | sigCount n =>
    simp only [wfStep] at hw
    split_ifs at hw with hc
    · obtain ⟨hin, hallF, hend, hcanc, herr, hle⟩ := hc
      have ha2 : { a with lastSig := n } = a2 := Option.some.inj hw
      subst ha2
      have hi : s.initDone = true := by rw [hR.idEq]; exact hin
      have hcg : s.cancelling = false := by rw [hR.cgEq]; exact hcanc
      have hra : s.receivedAll = false := by rw [hR.raEq, hallF, hend]; rfl
      have hst : step env s (Ev.sigCount n) = parseSignalSigCount s n := by
        show (if s.initDone then parseSignalSigCount s n else s) = _
        rw [if_pos hi]
      rw [hst]
      refine ⟨invA_sig s n hB hA hcg hra, ?_⟩
      have h1 := push_frame5 { s with received := n } (some (OutEv.sigCount n))
      have h2 := finish_frame5 (push { s with received := n } (some (OutEv.sigCount n)))
      refine { recEq := ?_, delEq := ?_, delLe := ?_, cgEq := ?_, raEq := ?_, idEq := ?_ }
      · show (parseSignalSigCount s n).received = n
        unfold parseSignalSigCount
        rw [h2.1, h1.1]
      · show (parseSignalSigCount s n).delivered = a.deliv
        unfold parseSignalSigCount
        rw [h2.2.1, h1.2.1]
        exact hR.delEq
      · exact hR.delLe.trans hle
      · show (parseSignalSigCount s n).cancelling = a.canc
        unfold parseSignalSigCount
        rw [h2.2.2.1, h1.2.2.1]
        exact hR.cgEq
      · show (parseSignalSigCount s n).receivedAll = (a.allF || a.ended)
        unfold parseSignalSigCount
        rw [h2.2.2.2.1, h1.2.2.2.1]
        exact hR.raEq
      · show (parseSignalSigCount s n).initDone = a.inited
        unfold parseSignalSigCount
        rw [h2.2.2.2.2, h1.2.2.2.2]
        exact hR.idEq
  | allFound =>
    simp only [wfStep] at hw
    split_ifs at hw with hc
    · obtain ⟨hin, hallF, hend, hcanc, herr⟩ := hc
      have ha2 : { a with allF := true } = a2 := Option.some.inj hw
      subst ha2
      have hi : s.initDone = true := by rw [hR.idEq]; exact hin
      have hcg : s.cancelling = false := by rw [hR.cgEq]; exact hcanc
      have hra : s.receivedAll = false := by rw [hR.raEq, hallF, hend]; rfl
      have hst : step env s Ev.allFound = parseSignalAllFound s := by
        show (if s.initDone then parseSignalAllFound s else s) = _
        rw [if_pos hi]
      rw [hst]
      refine ⟨invA_allF s hB hA hcg hra hdr, ?_⟩
      have h1 := push_frame5 { s with receivedAll := true } (some OutEv.allFound)
      have h2 := finish_frame5 (push { s with receivedAll := true } (some OutEv.allFound))
      refine { recEq := ?_, delEq := ?_, delLe := hR.delLe, cgEq := ?_, raEq := ?_,
               idEq := ?_ }
      · show (parseSignalAllFound s).received = a.lastSig
        unfold parseSignalAllFound
        rw [h2.1, h1.1]
        exact hR.recEq
      · show (parseSignalAllFound s).delivered = a.deliv
        unfold parseSignalAllFound
        rw [h2.2.1, h1.2.1]
        exact hR.delEq
      · show (parseSignalAllFound s).cancelling = a.canc
        unfold parseSignalAllFound
        rw [h2.2.2.1, h1.2.2.1]
        exact hR.cgEq
      · show (parseSignalAllFound s).receivedAll = (true || a.ended)
        unfold parseSignalAllFound
        rw [h2.2.2.2.1, h1.2.2.2.1]
        simp
      · show (parseSignalAllFound s).initDone = a.inited
        unfold parseSignalAllFound
        rw [h2.2.2.2.2, h1.2.2.2.2]
        exact hR.idEq
  | batch raws =>
    simp only [wfStep] at hw
    split_ifs at hw with hc
    · obtain ⟨hin, hend, hcanc, herr, hle⟩ := hc
      have ha2 : { a with deliv := a.deliv + raws.length } = a2 := Option.some.inj hw
      subst ha2
      have hi : s.initDone = true := by rw [hR.idEq]; exact hin
      have hcg : s.cancelling = false := by rw [hR.cgEq]; exact hcanc
      have hst : step env s (Ev.batch raws) = batchStep s raws := by
        show (if s.initDone then batchStep s raws else s) = _
        rw [if_pos hi]
      rw [hst]
      refine ⟨invA_batch s raws hB hA hcg, ?_⟩
      have h1 := processBatchStart_frame5
        { s with queue := s.queue ++ [raws], delivered := s.delivered + raws.length }
      refine { recEq := ?_, delEq := ?_, delLe := hle, cgEq := ?_, raEq := ?_, idEq := ?_ }
      · show (batchStep s raws).received = a.lastSig
        unfold batchStep
        rw [h1.1]
        exact hR.recEq
      · show (batchStep s raws).delivered = a.deliv + raws.length
        unfold batchStep
        rw [h1.2.1]
        show s.delivered + raws.length = a.deliv + raws.length
        rw [hR.delEq]
      · show (batchStep s raws).cancelling = a.canc
        unfold batchStep
        rw [h1.2.2.1]
        exact hR.cgEq
      · show (batchStep s raws).receivedAll = (a.allF || a.ended)
        unfold batchStep
        rw [h1.2.2.2.1]
        exact hR.raEq
      · show (batchStep s raws).initDone = a.inited
        unfold batchStep
        rw [h1.2.2.2.2]
        exact hR.idEq
  | srcEnd =>
    simp only [wfStep] at hw
    split_ifs at hw with hc
    · obtain ⟨hin, hend, herr⟩ := hc
      have ha2 : { a with ended := true } = a2 := Option.some.inj hw
      subst ha2
      have hi : s.initDone = true := by rw [hR.idEq]; exact hin
      have hst : step env s Ev.srcEnd = srcEndStep s := by
        show (if s.initDone then srcEndStep s else s) = _
        rw [if_pos hi]
      rw [hst]
      have hss : (srcEndStep s).received = s.received ∧
          (srcEndStep s).delivered = s.delivered ∧
          (srcEndStep s).cancelling = s.cancelling ∧
          (srcEndStep s).receivedAll = true ∧
          (srcEndStep s).initDone = s.initDone := by
        unfold srcEndStep
        split_ifs
        · exact ⟨rfl, rfl, rfl, rfl, rfl⟩
        · exact ⟨rfl, rfl, rfl, rfl, rfl⟩
      refine ⟨invA_srcEnd s hA, ?_⟩
      refine { recEq := ?_, delEq := ?_, delLe := hR.delLe, cgEq := ?_, raEq := ?_,
               idEq := ?_ }
      · rw [hss.1]
        exact hR.recEq
      · rw [hss.2.1]
        exact hR.delEq
      · rw [hss.2.2.1]
        exact hR.cgEq
      · rw [hss.2.2.2.1]
        simp
      · rw [hss.2.2.2.2]
        exact hR.idEq
  | srcError =>
    simp only [wfStep] at hw
    split_ifs at hw with hc
    · obtain ⟨hin, hend, hcanc, herr⟩ := hc
      have ha2 : { a with errored := true } = a2 := Option.some.inj hw
      subst ha2
      have hi : s.initDone = true := by rw [hR.idEq]; exact hin
      have hst : step env s Ev.srcError = { s with out := s.out ++ [OutEv.errEv] } := by
        show (if s.initDone then { s with out := s.out ++ [OutEv.errEv] } else s) = _
        rw [if_pos hi]
      rw [hst]
      exact ⟨invA_srcError s hA,
        { recEq := hR.recEq, delEq := hR.delEq, delLe := hR.delLe, cgEq := hR.cgEq,
          raEq := hR.raEq, idEq := hR.idEq }⟩
  | cancel =>
    have ha2 : (if a.inited then { a with canc := true } else a) = a2 :=
      Option.some.inj hw
    refine ⟨invA_cancel s hA, ?_⟩
    by_cases hi : s.initDone = true
    · have hai : a.inited = true := by rw [← hR.idEq]; exact hi
      rw [if_pos hai] at ha2
      subst ha2
      have hcs : cancelStep s = { s with cancelling := true
                                         cancelSnap := if s.cancelSnap = none ∧
                                             countTerm s.out = 0 then
                                             some (s.finStarts, s.finDone)
                                           else s.cancelSnap } := by
        unfold cancelStep cancelMethod
        rw [if_pos hi]
      show RAcc _ (cancelStep s)
      rw [hcs]
      exact { recEq := hR.recEq, delEq := hR.delEq, delLe := hR.delLe, cgEq := rfl,
              raEq := hR.raEq, idEq := hR.idEq }
    · have hai : a.inited = false := by
        rw [← hR.idEq]
        cases hid : s.initDone with
        | false => rfl
        | true => exact absurd hid hi
      rw [if_neg (by rw [hai]; intro hx; cases hx)] at ha2
      subst ha2
      have hcs : cancelStep s = s := by
        unfold cancelStep cancelMethod
        rw [if_neg hi]
      show RAcc _ (cancelStep s)
      rw [hcs]
      exact hR
  | runTask t =>
    have ha2 : a = a2 := Option.some.inj hw
    subst ha2
    have hfr := runTaskStep_frame5 env s t
    constructor
    · show InvA (runTaskStep env s t)
      unfold runTaskStep
      split_ifs with hmem
      · cases t with
        | transform raws => exact invA_runTransform env s raws hB hA hdr hmem
        | finOpen bid key txs pos => exact invA_runFinOpen s bid key txs pos hB hA hmem
        | afterJoin bid ic =>
          show InvA (if noFinOpenBid s.tasks bid then
            afterJoinResume { s with tasks := s.tasks.erase (Task.afterJoin bid ic) } ic
            else s)
          split_ifs with hnf
          · exact invA_runAfterJoin s bid ic hB hA hdr hmem hnf
          · exact hA
        | drainLoop => exact invA_runDrain s hB hA hdr hmem
      · exact hA
    · exact { recEq := hfr.1.trans hR.recEq, delEq := hfr.2.1.trans hR.delEq,
              delLe := hR.delLe, cgEq := hfr.2.2.1.trans hR.cgEq,
              raEq := hfr.2.2.2.1.trans hR.raEq, idEq := hfr.2.2.2.2.trans hR.idEq }
  | failTransform raws =>
    have ha2 : a = a2 := Option.some.inj hw
    subst ha2
    show InvA (if Task.transform raws ∈ s.tasks then
        { s with tasks := s.tasks.erase (Task.transform raws)
                 lost := s.lost + raws.length } else s) ∧
      RAcc a (if Task.transform raws ∈ s.tasks then
        { s with tasks := s.tasks.erase (Task.transform raws)
                 lost := s.lost + raws.length } else s)
    split_ifs with hmem
    · constructor
      · have hicsum : icSum s.tasks =
            raws.length + icSum (s.tasks.erase (Task.transform raws)) := by
          have := icSum_perm (List.perm_cons_erase hmem)
          simpa [icSum, icOf] using this
        refine { acc := ?_, dProc := hA.dProc, snapCg := hA.snapCg, termLe := hA.termLe,
                 termFlag := hA.termFlag, afterOk := hA.afterOk, snapB4 := hA.snapB4 }
        show s.processed + icSum (s.tasks.erase (Task.transform raws)) + qSum s.queue +
          (s.lost + raws.length) = s.delivered
        have := hA.acc
        omega
      · exact { recEq := hR.recEq, delEq := hR.delEq, delLe := hR.delLe, cgEq := hR.cgEq,
                raEq := hR.raEq, idEq := hR.idEq }
    · exact ⟨hA, hR⟩

theorem push_drained (s : St) (c : Option OutEv) : (push s c).drained = s.drained := by
  obtain ⟨w, hwout, huinit, hurecAll, hurec, huproc, hulog, hudone, hucg, hupend,
    huqueue, hutasks, hubid, hudel, hudr, hulost, hufs, hufd, husnap⟩ := push_frame s c
  exact hudr

theorem push_tasks (s : St) (c : Option OutEv) : (push s c).tasks = s.tasks := by
  obtain ⟨w, hwout, huinit, hurecAll, hurec, huproc, hulog, hudone, hucg, hupend,
    huqueue, hutasks, hubid, hudel, hudr, hulost, hufs, hufd, husnap⟩ := push_frame s c
  exact hutasks

theorem push_finStarts (s : St) (c : Option OutEv) :
    (push s c).finStarts = s.finStarts := by
  obtain ⟨w, hwout, huinit, hurecAll, hurec, huproc, hulog, hudone, hucg, hupend,
    huqueue, hutasks, hubid, hudel, hudr, hulost, hufs, hufd, husnap⟩ := push_frame s c
  exact hufs

theorem finish_drained (s : St) : (finish s).drained = s.drained := by
  unfold finish
  split_ifs
  · exact push_drained _ _
  · rfl

theorem finish_tasks (s : St) : (finish s).tasks = s.tasks := by
  unfold finish
  split_ifs
  · exact push_tasks _ _
  · rfl

theorem finish_finStarts (s : St) : (finish s).finStarts = s.finStarts := by
  unfold finish
  split_ifs
  · exact push_finStarts _ _
  · rfl

theorem any_isTransform_erase (l : List Task) (t : Task)
    (h : l.any isTransformTask = false) : (l.erase t).any isTransformTask = false := by
  rw [List.any_eq_false] at *
  intro x hx
  exact h x (List.erase_subset _ _ hx)

theorem any_isTransform_append (l1 l2 : List Task)
    (h1 : l1.any isTransformTask = false) (h2 : l2.any isTransformTask = false) :
    (l1 ++ l2).any isTransformTask = false := by
  rw [List.any_append, h1, h2]
  rfl

/-- No state transformer reachable while `_cancelling` is set drains a
batch: `_processBatch` skips its body and the end-handler loop spins
without calling `next()`. -/
theorem drained_cancelling_step (env : Env) (s : St) (e : Ev)
    (hcg : s.cancelling = true) : (step env s e).drained = s.drained := by
  cases e with
  | initEv => rfl
  | sigCount n =>
    show (if s.initDone then parseSignalSigCount s n else s).drained = s.drained
    split_ifs
    · exact (finish_drained _).trans (push_drained _ _)
    · rfl
  | allFound =>
    show (if s.initDone then parseSignalAllFound s else s).drained = s.drained
    split_ifs
    · exact (finish_drained _).trans (push_drained _ _)
    · rfl
  | batch raws =>
    show (if s.initDone then batchStep s raws else s).drained = s.drained
    split_ifs
    · unfold batchStep processBatchStart
      rw [if_neg]
      intro hx
      have h2 : s.cancelling = false := hx.1
      rw [hcg] at h2
      simp at h2
    · rfl
  | srcEnd =>
    show (if s.initDone then srcEndStep s else s).drained = s.drained
    split_ifs
    · unfold srcEndStep
      split_ifs
      · rfl
      · rfl
    · rfl
  | srcError =>
    show (if s.initDone then { s with out := s.out ++ [OutEv.errEv] } else s).drained =
      s.drained
    split_ifs
    · rfl
    · rfl
  | cancel =>
    show (cancelStep s).drained = s.drained
    unfold cancelStep cancelMethod
    by_cases hi : s.initDone = true
    · rw [if_pos hi]
    · rw [if_neg hi]
  | runTask t =>
    show (runTaskStep env s t).drained = s.drained
    unfold runTaskStep
    split_ifs with hmem
    · cases t with
      | transform raws =>
        show (transformResume env
          { s with tasks := s.tasks.erase (Task.transform raws) } raws).drained =
          s.drained
        unfold transformResume
        split_ifs
        · show (transformCore env
            { s with tasks := s.tasks.erase (Task.transform raws) } raws).drained =
            s.drained
          show (spawnFinalizes env s.nextBid
            (push { s with tasks := s.tasks.erase (Task.transform raws)
                           log := s.log ++ env.classify raws }
              (some (OutEv.txCount (s.log ++ env.classify raws).length)))
            (env.classify raws)).drained = s.drained
          rw [spawn_eq]
          exact push_drained _ _
        · rfl
        · exact finish_drained _
      | finOpen bid key txs pos =>
        show (updateOpenResume
          { s with tasks := s.tasks.erase (Task.finOpen bid key txs pos) }
          key txs pos).drained = s.drained
        exact push_drained _ _
      | afterJoin bid ic =>
        show (if noFinOpenBid s.tasks bid then
          afterJoinResume { s with tasks := s.tasks.erase (Task.afterJoin bid ic) } ic
          else s).drained = s.drained
        split_ifs
        · exact finish_drained _
        · rfl
      | drainLoop =>
        show (drainResume { s with tasks := s.tasks.erase Task.drainLoop }).drained =
          s.drained
        unfold drainResume
        split_ifs with h1 h2
        · rfl
        · rfl
        · exact absurd (Or.inl hcg) h2
    · rfl
  | failTransform raws =>
    show (if Task.transform raws ∈ s.tasks then
        { s with tasks := s.tasks.erase (Task.transform raws)
                 lost := s.lost + raws.length } else s).drained = s.drained
    split_ifs
    · rfl
    · rfl

/-- While `_cancelling` is set and no classifier transform is in flight,
no new finalize step starts (and none can be scheduled). -/
theorem finStarts_cancelling_step (env : Env) (s : St) (e : Ev)
    (hcg : s.cancelling = true) (hnt : noTransformTasks s = true) :
    (step env s e).finStarts = s.finStarts ∧
      noTransformTasks (step env s e) = true := by
  have hnt2 : s.tasks.any isTransformTask = false := by
    rw [noTransformTasks] at hnt
    cases hany : s.tasks.any isTransformTask with
    | false => rfl
    | true => rw [hany] at hnt; simp at hnt
  have hmk : ∀ u : St, u.tasks.any isTransformTask = false →
      noTransformTasks u = true := by
    intro u hu
    rw [noTransformTasks, hu]
    rfl
  cases e with
  | initEv => exact ⟨rfl, hmk _ hnt2⟩
  | sigCount n =>
    show (if s.initDone then parseSignalSigCount s n else s).finStarts = s.finStarts ∧
      noTransformTasks (if s.initDone then parseSignalSigCount s n else s) = true
    split_ifs
    · constructor
      · exact (finish_finStarts _).trans (push_finStarts _ _)
      · apply hmk
        have ht : (parseSignalSigCount s n).tasks = s.tasks :=
          (finish_tasks _).trans (push_tasks _ _)
        rw [ht]
        exact hnt2
    · exact ⟨rfl, hmk _ hnt2⟩
  | allFound =>
    show (if s.initDone then parseSignalAllFound s else s).finStarts = s.finStarts ∧
      noTransformTasks (if s.initDone then parseSignalAllFound s else s) = true
    split_ifs
    · constructor
      · exact (finish_finStarts _).trans (push_finStarts _ _)
      · apply hmk
        have ht : (parseSignalAllFound s).tasks = s.tasks :=
          (finish_tasks _).trans (push_tasks _ _)
        rw [ht]
        exact hnt2
    · exact ⟨rfl, hmk _ hnt2⟩
  | batch raws =>
    show (if s.initDone then batchStep s raws else s).finStarts = s.finStarts ∧
      noTransformTasks (if s.initDone then batchStep s raws else s) = true
    split_ifs
    · unfold batchStep processBatchStart
      rw [if_neg]
      · exact ⟨rfl, hmk _ hnt2⟩
      · intro hx
        have h2 : s.cancelling = false := hx.1
        rw [hcg] at h2
        simp at h2
    · exact ⟨rfl, hmk _ hnt2⟩
  | srcEnd =>
    show (if s.initDone then srcEndStep s else s).finStarts = s.finStarts ∧
      noTransformTasks (if s.initDone then srcEndStep s else s) = true
    split_ifs
    · unfold srcEndStep
      split_ifs
      · exact ⟨rfl, hmk _ hnt2⟩
      · exact ⟨rfl, hmk _ (any_isTransform_append s.tasks [Task.drainLoop] hnt2 rfl)⟩
    · exact ⟨rfl, hmk _ hnt2⟩
  | srcError =>
    show (if s.initDone then { s with out := s.out ++ [OutEv.errEv] } else s).finStarts =
        s.finStarts ∧
      noTransformTasks
        (if s.initDone then { s with out := s.out ++ [OutEv.errEv] } else s) = true
    split_ifs
    · exact ⟨rfl, hmk _ hnt2⟩
    · exact ⟨rfl, hmk _ hnt2⟩
  | cancel =>
    show (cancelStep s).finStarts = s.finStarts ∧ noTransformTasks (cancelStep s) = true
    unfold cancelStep cancelMethod
    by_cases hi : s.initDone = true
    · rw [if_pos hi]
      exact ⟨rfl, hmk _ hnt2⟩
    · rw [if_neg hi]
      exact ⟨rfl, hmk _ hnt2⟩
  | runTask t =>
    show (runTaskStep env s t).finStarts = s.finStarts ∧
      noTransformTasks (runTaskStep env s t) = true
    unfold runTaskStep
    split_ifs with hmem
    · cases t with
      | transform raws =>
        have : s.tasks.any isTransformTask = true :=
          List.any_eq_true.mpr ⟨_, hmem, rfl⟩
        rw [this] at hnt2
        cases hnt2
      | finOpen bid key txs pos =>
        constructor
        · show (updateOpenResume
            { s with tasks := s.tasks.erase (Task.finOpen bid key txs pos) }
            key txs pos).finStarts = s.finStarts
          exact push_finStarts _ _
        · apply hmk
          have ht : (updateOpenResume
              { s with tasks := s.tasks.erase (Task.finOpen bid key txs pos) }
              key txs pos).tasks = s.tasks.erase (Task.finOpen bid key txs pos) :=
            push_tasks _ _
          show (updateOpenResume
            { s with tasks := s.tasks.erase (Task.finOpen bid key txs pos) }
            key txs pos).tasks.any isTransformTask = false
          rw [ht]
          exact any_isTransform_erase s.tasks _ hnt2
      | afterJoin bid ic =>
        show (if noFinOpenBid s.tasks bid then
            afterJoinResume { s with tasks := s.tasks.erase (Task.afterJoin bid ic) } ic
            else s).finStarts = s.finStarts ∧
          noTransformTasks (if noFinOpenBid s.tasks bid then
            afterJoinResume { s with tasks := s.tasks.erase (Task.afterJoin bid ic) } ic
            else s) = true
        split_ifs
        · constructor
          · exact finish_finStarts _
          · apply hmk
            have ht : (afterJoinResume
                { s with tasks := s.tasks.erase (Task.afterJoin bid ic) } ic).tasks =
                s.tasks.erase (Task.afterJoin bid ic) := finish_tasks _
            rw [ht]
            exact any_isTransform_erase s.tasks _ hnt2
        · exact ⟨rfl, hmk _ hnt2⟩
      | drainLoop =>
        show (drainResume { s with tasks := s.tasks.erase Task.drainLoop }).finStarts =
            s.finStarts ∧
          noTransformTasks (drainResume { s with tasks := s.tasks.erase Task.drainLoop })
            = true
        unfold drainResume
        split_ifs with h1 h2
        · exact ⟨rfl, hmk _ (any_isTransform_erase s.tasks _ hnt2)⟩
        · exact ⟨rfl, hmk _ (any_isTransform_append _ [Task.drainLoop]
            (any_isTransform_erase s.tasks _ hnt2) rfl)⟩
        · exact absurd (Or.inl hcg) h2
    · exact ⟨rfl, hmk _ hnt2⟩
  | failTransform raws =>
    show (if Task.transform raws ∈ s.tasks then
        { s with tasks := s.tasks.erase (Task.transform raws)
                 lost := s.lost + raws.length } else s).finStarts = s.finStarts ∧
      noTransformTasks (if Task.transform raws ∈ s.tasks then
        { s with tasks := s.tasks.erase (Task.transform raws)
                 lost := s.lost + raws.length } else s) = true
    split_ifs
    · exact ⟨rfl, hmk _ (any_isTransform_erase s.tasks _ hnt2)⟩
    · exact ⟨rfl, hmk _ hnt2⟩

/-- `_receivedAllTransactions`, once set, is never cleared by any step. -/
theorem receivedAll_mono_step (env : Env) (s : St) (e : Ev)
    (hra : s.receivedAll = true) : (step env s e).receivedAll = true := by
  cases e with
  | initEv => exact hra
  | sigCount n =>
    show (if s.initDone then parseSignalSigCount s n else s).receivedAll = true
    split_ifs
    · have h1 := push_frame5 { s with received := n } (some (OutEv.sigCount n))
      have h2 := finish_frame5 (push { s with received := n } (some (OutEv.sigCount n)))
      exact (h2.2.2.2.1.trans h1.2.2.2.1).trans hra
    · exact hra
  | allFound =>
    show (if s.initDone then parseSignalAllFound s else s).receivedAll = true
    split_ifs
    · have h1 := push_frame5 { s with receivedAll := true } (some OutEv.allFound)
      have h2 := finish_frame5 (push { s with receivedAll := true } (some OutEv.allFound))
      exact h2.2.2.2.1.trans h1.2.2.2.1
    · exact hra
  | batch raws =>
    show (if s.initDone then batchStep s raws else s).receivedAll = true
    split_ifs
    · have h1 := processBatchStart_frame5
        { s with queue := s.queue ++ [raws], delivered := s.delivered + raws.length }
      exact h1.2.2.2.1.trans hra
    · exact hra
  | srcEnd =>
    show (if s.initDone then srcEndStep s else s).receivedAll = true
    split_ifs
    · unfold srcEndStep
      split_ifs
      · rfl
      · rfl
    · exact hra
  | srcError =>
    show (if s.initDone then { s with out := s.out ++ [OutEv.errEv] } else s).receivedAll =
      true
    split_ifs
    · exact hra
    · exact hra
  | cancel =>
    show (cancelStep s).receivedAll = true
    unfold cancelStep cancelMethod
    by_cases hi : s.initDone = true
    · rw [if_pos hi]
      exact hra
    · rw [if_neg hi]
      exact hra
  | runTask t =>
    exact (runTaskStep_frame5 env s t).2.2.2.1.trans hra
  | failTransform raws =>
    show (if Task.transform raws ∈ s.tasks then
        { s with tasks := s.tasks.erase (Task.transform raws)
                 lost := s.lost + raws.length } else s).receivedAll = true
    split_ifs
    · exact hra
    · exact hra

theorem invA_init : InvA initSt := by
  refine { acc := rfl, dProc := ?_, snapCg := ?_, termLe := ?_, termFlag := ?_,
           afterOk := ?_, snapB4 := ?_ }
  · intro h
    exact absurd h (by decide)
  · intro h
    exact absurd rfl h
  · decide
  · decide
  · intro e he
    have he2 : e ∈ ([] : List OutEv) := he
    exact absurd he2 (List.not_mem_nil e)
  · intro h
    exact absurd h (by decide)

theorem rAcc_init : RAcc wfAcc0 initSt :=
  { recEq := rfl, delEq := rfl, delLe := Nat.le_refl 0, cgEq := rfl, raEq := rfl,
    idEq := rfl }

theorem wfRun_snoc (l : List Ev) (e : Ev) :
    wfRun (l ++ [e]) = (wfRun l).bind (fun a => wfStep a e) := by
  unfold wfRun
  rw [List.foldl_append]
  rfl

theorem exec_snoc (env : Env) (l : List Ev) (e : Ev) :
    exec env (l ++ [e]) = step env (exec env l) e := by
  unfold exec
  rw [List.foldl_append]
  rfl

/-- The main reachability theorem: every state reached by a well-formed
schedule satisfies the structural and well-formedness invariants and
corresponds to the schedule's source-interface accumulator. -/
theorem inv_main (env : Env) (sched : List Ev) : ∀ a : WfAcc,
    wfRun sched = some a →
    InvB (exec env sched) ∧ InvA (exec env sched) ∧ RAcc a (exec env sched) := by
  induction sched using List.reverseRecOn with
  | nil =>
    intro a hw
    have ha : wfAcc0 = a := Option.some.inj hw
    subst ha
    exact ⟨invB_init, invA_init, rAcc_init⟩
  | append_singleton l e ih =>
    intro a2 hw
    rw [wfRun_snoc] at hw
    obtain ⟨a1, hw1, hw2⟩ := Option.bind_eq_some.mp hw
    obtain ⟨hBl, hAl, hRl⟩ := ih a1 hw1
    rw [exec_snoc]
    obtain ⟨hA2, hR2⟩ := invA_step env (exec env l) e a1 a2 hBl hAl hRl hw2
    exact ⟨invB_step env (exec env l) e hBl, hA2, hR2⟩

/-! ### Claim theorems: emission completeness (C5 amended) and the
open-position path (C6 amended) -/

/-- C5 (amended): in any reachable state with no open-position finalize
step in flight, the number of `positionAndTransactions` emissions equals
the number of `open`-trigger classified transactions in the log (one
finalize per open trigger) — not the number of distinct position keys,
which can differ (see the counterexample). -/
theorem C5_emissions_count (env : Env) (sched : List Ev)
    (hq : pendKeys (exec env sched).tasks = []) :
    countPosTx (exec env sched).out = countOpen (exec env sched).log := by
  have h := invB_exec env sched
  have h1 := h.emis
  have h2 := h.bal
  have h3 := h.openAcc
  rw [hq] at h2
  simp at h2
  omega

/-- Witness for C5 (amended) on a completed closed-position run. -/
theorem C5_witness :
    countPosTx (exec envA schedOneClosed).out =
      countOpen (exec envA schedOneClosed).log :=
  C5_emissions_count envA schedOneClosed (by decide)

/-- C6 (amended): for every finalized position whose aggregate is not
closed, the live-state augmenter runs before the record is emitted (the
emitted not-closed record is always augmented) — but no
`updatingOpenPositions` event is ever emitted, in any execution: the
event type is declared in the output union and never produced. -/
theorem C6_no_updatingOpenPositions (env : Env) (sched : List Ev) :
    countUop (exec env sched).out = 0 ∧
    (∀ txs pos, OutEv.posTx txs pos ∈ (exec env sched).out → pos.isClosed = false →
      pos.augmented = true) := by
  have h := invB_exec env sched
  constructor
  · rw [countUop]
    rw [List.countP_eq_zero]
    intro e he
    cases e with
    | uop n => exact absurd he (h.noUop n)
    | _ => simp [isUopEv]
  · exact h.aug

/-! ### Claim theorem: classifier failure reaches no listener (C7) -/

/-- C7 (divergence witness): when the classifier transform rejects on
the only batch, the rejection propagates into the promise returned by
`_processBatch`, which no caller awaits — so listeners receive no
`error` event at all (and no `end` either; `lost = 1` records that the
batch's transform failed).  The spec's claim that the failure is
propagated as a stream error event does not hold of the code. -/
theorem C7_classifier_failure_unreported :
    wfOk schedClassifierFails = true ∧
    (exec envA schedClassifierFails).lost = 1 ∧
    countErr (exec envA schedClassifierFails).out = 0 ∧
    countTerm (exec envA schedClassifierFails).out = 0 := by decide

/-! ### Claim theorems: the terminal signal's shape (C1 amended),
cooperative cancellation (C4 amended), the pending-set invariant (C8)
and the progress counters (C9) -/

/-- C1 (amended): under any well-formed environment the terminal `null`
signal is produced at most once, but output can follow it — every event
after the terminal is a batch-derived `transactionCount` or
`positionAndTransactions` emission or a source error, exactly the output
of a batch whose classifier was in flight when cancellation was
requested (see the counterexample for an execution with data after the
terminal). -/
theorem C1_terminal_at_most_once (env : Env) (sched : List Ev)
    (hw : wfOk sched = true) :
    countTerm (exec env sched).out ≤ 1 ∧
    ∀ e ∈ afterTerm (exec env sched).out, allowedAfterTerm e = true := by
  obtain ⟨a, ha⟩ := Option.isSome_iff_exists.mp hw
  obtain ⟨hB, hA, hR⟩ := inv_main env sched a ha
  exact ⟨hA.termLe, hA.afterOk⟩

/-- Witness for C1 (amended) on the cancel-mid-transform run, whose
output really does carry two emissions after the terminal. -/
theorem C1_witness :
    countTerm (exec envA schedCancelResumed).out ≤ 1 ∧
    ∀ e ∈ afterTerm (exec envA schedCancelResumed).out, allowedAfterTerm e = true :=
  C1_terminal_at_most_once envA schedCancelResumed (by decide)

/-- C4 (amended): cancellation is cooperative in the weaker sense that
(i) once `_cancelling` is set no step drains another batch, and (ii) if
additionally no classifier transform is in flight, no step starts a new
finalize and none can become schedulable; but a transform already in
flight at cancel time still spawns its finalize steps afterwards (see
the counterexample), and (iii) the finalize steps started before a
pre-terminal cancellation are not all emitted before the terminal: only
the snapshot bound holds — at most the snapshotted count is emitted
before it. -/
theorem C4_cancellation_cooperative (env : Env) :
    (∀ s : St, ∀ e : Ev, s.cancelling = true → (step env s e).drained = s.drained) ∧
    (∀ s : St, ∀ e : Ev, s.cancelling = true → noTransformTasks s = true →
      (step env s e).finStarts = s.finStarts ∧
        noTransformTasks (step env s e) = true) ∧
    (∀ sched : List Ev, wfOk sched = true → ∀ sc dc,
      (exec env sched).cancelSnap = some (sc, dc) →
      OutEv.term ∈ (exec env sched).out →
      sc ≤ countPosTx (beforeTerm (exec env sched).out)) := by
  refine ⟨drained_cancelling_step env, finStarts_cancelling_step env, ?_⟩
  intro sched hw sc dc hsnap hterm
  obtain ⟨a, ha⟩ := Option.isSome_iff_exists.mp hw
  obtain ⟨hB, hA, hR⟩ := inv_main env sched a ha
  have hpos : 0 < countTerm (exec env sched).out := by
    rw [countTerm]
    apply List.countP_pos.mpr
    exact ⟨OutEv.term, hterm, rfl⟩
  exact hA.snapB4 hpos sc dc hsnap

/-- Witness for C4 (amended) at the cancel-mid-transform run: the
cancelling state drains nothing further, a cancelling state without
in-flight transforms starts no finalize, and the (zero) finalize steps
snapshotted at cancellation are all emitted before the terminal. -/
theorem C4_witness :
    (step envA (exec envA schedCancelResumed) Ev.srcEnd).drained =
      (exec envA schedCancelResumed).drained ∧
    ((step envA (exec envA schedCancelResumed) Ev.srcEnd).finStarts =
      (exec envA schedCancelResumed).finStarts ∧
      noTransformTasks (step envA (exec envA schedCancelResumed) Ev.srcEnd) = true) ∧
    0 ≤ countPosTx (beforeTerm (exec envA schedCancelResumed).out) :=
  ⟨(C4_cancellation_cooperative envA).1 (exec envA schedCancelResumed) Ev.srcEnd
     (by decide),
   (C4_cancellation_cooperative envA).2.1 (exec envA schedCancelResumed) Ev.srcEnd
     (by decide) (by decide),
   (C4_cancellation_cooperative envA).2.2 schedCancelResumed (by decide) 0 0
     (by decide) (by decide)⟩

/-- C8: the pending-position set is empty at the moment either terminal
is delivered — the cancellation terminal (the push that flips
`_cancelled`) fires only from an empty pending set, and in any reachable
state where the normal terminal's guard `received == processed` holds
the pending set is empty — while a reachable state can hold several
pending keys at once. -/
theorem C8_pending_empty_at_terminal (env : Env) :
    (∀ s : St, ∀ c : Option OutEv, (push s c).cancelled = true →
      s.cancelled = false → s.pending = []) ∧
    (∀ sched : List Ev, wfOk sched = true →
      (exec env sched).received = (exec env sched).processed →
      (exec env sched).pending = []) ∧
    (exec envD schedTwoPending).pending = [5, 6] := by
  refine ⟨?_, ?_, by decide⟩
  · intro s c h1 h2
    rcases push_out_cases s c with ⟨ho, hcd⟩ | ⟨ho, hp, hcg, hcdpre, hcd⟩ | ⟨ho, hcdpre, hcd⟩
    · rw [h1] at hcd
      rw [← hcd] at h2
      simp at h2
    · exact hp
    · rw [hcdpre] at h2
      simp at h2
  · intro sched hw hrp
    obtain ⟨a, ha⟩ := Option.isSome_iff_exists.mp hw
    obtain ⟨hB, hA, hR⟩ := inv_main env sched a ha
    have hdr : (exec env sched).delivered ≤ (exec env sched).received := by
      rw [hR.delEq, hR.recEq]
      exact hR.delLe
    by_contra hp
    exact pending_blocks_finish (exec env sched) hB hA.acc hdr hp hrp

/-- Witness for C8: the gate case at a cancelling state, the
reachable-state case on a trivially complete run, and two keys pending
at once on a two-open-positions run. -/
theorem C8_witness :
    ({ initSt with cancelling := true } : St).pending = [] ∧
    (exec envA [Ev.initEv, Ev.srcEnd]).pending = [] ∧
    (exec envD schedTwoPending).pending = [5, 6] :=
  ⟨(C8_pending_empty_at_terminal envA).1 { initSt with cancelling := true }
     (some (OutEv.txCount 0)) (by decide) (by decide),
   (C8_pending_empty_at_terminal envA).2.1 [Ev.initEv, Ev.srcEnd] (by decide) (by decide),
   (C8_pending_empty_at_terminal envA).2.2⟩

/-- C9: in every state reached by a well-formed schedule the
processed-transaction counter is at most the received-signature counter,
and the `_receivedAllTransactions` flag never reverts once set. -/
theorem C9_progress_counters (env : Env) :
    (∀ sched : List Ev, wfOk sched = true →
      (exec env sched).processed ≤ (exec env sched).received) ∧
    (∀ s : St, ∀ e : Ev, s.receivedAll = true → (step env s e).receivedAll = true) := by
  refine ⟨?_, receivedAll_mono_step env⟩
  intro sched hw
  obtain ⟨a, ha⟩ := Option.isSome_iff_exists.mp hw
  obtain ⟨hB, hA, hR⟩ := inv_main env sched a ha
  have hdr : (exec env sched).delivered ≤ (exec env sched).received := by
    rw [hR.delEq, hR.recEq]
    exact hR.delLe
  have hacc := hA.acc
  omega

/-- Witness for C9 on a completed run whose flag is set. -/
theorem C9_witness :
    (exec envB schedOneClosed).processed ≤ (exec envB schedOneClosed).received ∧
    (step envB (exec envB schedOneClosed) Ev.srcEnd).receivedAll = true :=
  ⟨(C9_progress_counters envB).1 schedOneClosed (by decide),
   (C9_progress_counters envB).2 (exec envB schedOneClosed) Ev.srcEnd (by decide)⟩

end MPS

